import Mathlib

/-!
Shallow embedding of the project-structure file utilities:
`src/project_generator.py` (the serializer `ProjectStructureGenerator` /
`get_file_contents` / `main`) and `src/project_utils/project_recreator.py`
(the parser `parse_source_file` / `_parse_file_contents_robust` /
`_parse_file_contents_alternative` and the materializer
`get_unique_directory_name` / `_create_files_complete`).

Strings are modelled as `List Char`.  The host platform is POSIX, so
`os.sep = '/'`, `os.path.join a b = a ++ "/" ++ b` (for `a` without a
trailing separator and relative `b`), and `os.path.dirname` / `basename`
split on `'/'`.  Python's `\s` character class and `str.strip()` are
modelled by `pyIsSpace` (ASCII whitespace); the documents below only
contain these whitespace characters.  Regular expressions are embedded as
explicit backtracking matchers with Python's semantics: greedy pieces try
the longest alternative first, lazy pieces the shortest, and the rightmost
quantifier backtracks first.
-/

def pyIsSpace (c : Char) : Bool :=
  c = ' ' || c = '\t' || c = '\n' || c = '\r' || c = Char.ofNat 11 || c = Char.ofNat 12

/-- The box-drawing character `─` (U+2500) used by the framing markers. -/
def boxDash : Char := '─'

/-- Python `str.lstrip()` over the whitespace set. -/
def lstripChars (s : List Char) : List Char := s.dropWhile (fun c => pyIsSpace c)

/-- Python `str.strip()`. -/
def stripChars (s : List Char) : List Char :=
  ((lstripChars s).reverse.dropWhile (fun c => pyIsSpace c)).reverse

/-- Match a literal: `matchLit l s = some r` iff `s = l ++ r`. -/
def matchLit : List Char → List Char → Option (List Char)
  | [], s => some s
  | _ :: _, [] => none
  | c :: l, d :: s => if c = d then matchLit l s else none

/-- Backtracking alternatives of a greedy `\s*`: the suffixes of `s` obtained
by removing a whitespace run, longest removal first. -/
def wsAlts : List Char → List (List Char)
  | [] => [[]]
  | c :: t => if pyIsSpace c then wsAlts t ++ [c :: t] else [c :: t]

/-- Backtracking alternatives of a greedy `─+`: the suffixes of `s` obtained by
removing at least one `─`, longest removal first; none if `s` does not start
with `─`. -/
def dashAlts : List Char → List (List Char)
  | [] => []
  | c :: t => if c = boxDash then dashAlts t ++ [t] else []

/-- Try alternatives in order; the first success wins (backtracking). -/
def firstSome {α β : Type} (l : List α) (f : α → Option β) : Option β :=
  match l with
  | [] => none
  | a :: t =>
    match f a with
    | some b => some b
    | none => firstSome t f

def fileStartLit : List Char := ("────── FILE START:").data

def fileEndLit : List Char := ("FILE END:").data

/-- Tail of the strict pattern after `FILE END:`: `\s*\1\s*\(\2\)` with the two
backreferences to the captured name and path. -/
def matchEndTail (g1 g2 s : List Char) : Option (List Char) :=
  firstSome (wsAlts s) fun s1 =>
    (matchLit g1 s1).bind fun s2 =>
      firstSome (wsAlts s2) fun s3 =>
        (matchLit ['('] s3).bind fun s4 =>
          (matchLit g2 s4).bind fun s5 =>
            matchLit [')'] s5

/-- `\s*─+\s*FILE END:` followed by the backreference tail. -/
def matchEndMarker (g1 g2 s : List Char) : Option (List Char) :=
  firstSome (wsAlts s) fun s1 =>
    firstSome (dashAlts s1) fun s2 =>
      firstSome (wsAlts s2) fun s3 =>
        (matchLit fileEndLit s3).bind fun s4 => matchEndTail g1 g2 s4

/-- The lazy content group `(.*?)` (with `re.DOTALL`): grow one character at a
time until the end marker with the given backreferences matches. -/
def matchContent (g1 g2 acc s : List Char) : Option (List Char × List Char) :=
  match matchEndMarker g1 g2 s with
  | some r => some (acc.reverse, r)
  | none =>
    match s with
    | [] => none
    | c :: t => matchContent g1 g2 (c :: acc) t

/-- `\s*─+\s*` between the start marker's closing dashes and the content. -/
def matchSep (g1 g2 s : List Char) : Option (List Char × List Char) :=
  firstSome (wsAlts s) fun s1 =>
    firstSome (dashAlts s1) fun s2 =>
      firstSome (wsAlts s2) fun s3 =>
        matchContent g1 g2 [] s3

/-- The lazy path group inside `\((.*?)\)`: close at `)` as early as the rest
of the pattern allows, otherwise swallow the `)` and keep growing. -/
def matchPath (g1 acc s : List Char) : Option (List Char × List Char × List Char) :=
  match s with
  | [] => none
  | c :: t =>
    if c = ')' then
      match matchSep g1 acc.reverse t with
      | some (g3, r) => some (acc.reverse, g3, r)
      | none => matchPath g1 (c :: acc) t
    else matchPath g1 (c :: acc) t

/-- The lazy name group with its trailing `\s*\(`: at each length try
`\s*\(` followed by the whole rest of the pattern, else grow. -/
def matchName (acc s : List Char) : Option (List Char × List Char × List Char × List Char) :=
  match
    firstSome (wsAlts s) fun s1 =>
      (matchLit ['('] s1).bind fun t =>
        (matchPath acc.reverse [] t).map fun x => (acc.reverse, x.1, x.2.1, x.2.2)
  with
  | some r => some r
  | none =>
    match s with
    | [] => none
    | c :: t => matchName (c :: acc) t

/-- Leading `\s*` after `FILE START:` followed by the name group. -/
def matchAfterStart (s : List Char) : Option (List Char × List Char × List Char × List Char) :=
  firstSome (wsAlts s) fun s1 => matchName [] s1

/-- Attempt the strict pattern
`────── FILE START:\s*(.*?)\s*\((.*?)\)\s*─+\s*(.*?)\s*─+\s*FILE END:\s*\1\s*\(\2\)`
at the head of `s`; on success return the three groups and the rest. -/
def matchSectionAt (s : List Char) : Option (List Char × List Char × List Char × List Char) :=
  (matchLit fileStartLit s).bind fun s1 => matchAfterStart s1

/-- `re.findall` for the strict pattern: scan left to right; matches do not
overlap and scanning resumes right after each match. -/
def findAllAux : Nat → List Char → List (List Char × List Char × List Char)
  | 0, _ => []
  | _, [] => []
  | fuel + 1, s =>
    match matchSectionAt s with
    | some (g1, g2, g3, r) => (g1, g2, g3) :: findAllAux fuel r
    | none =>
      match s with
      | [] => []
      | _ :: t => findAllAux fuel t

def findAllStrict (s : List Char) : List (List Char × List Char × List Char) :=
  findAllAux s.length s

/-- Python dict assignment `d[k] = v`: insertion-ordered, overwrite in place. -/
def dictInsert (k v : List Char) : List (List Char × List Char) → List (List Char × List Char)
  | [] => [(k, v)]
  | (k1, v1) :: t => if k1 = k then (k, v) :: t else (k1, v1) :: dictInsert k v t

/-- The storing loop of `_parse_file_contents_robust`: each match's path and
content are stripped and written into the `file_contents` dict. -/
def storeMatches (ms : List (List Char × List Char × List Char))
    (d : List (List Char × List Char)) : List (List Char × List Char) :=
  match ms with
  | [] => d
  | (_, g2, g3) :: t => storeMatches t (dictInsert (stripChars g2) (stripChars g3) d)

/-! ## The alternative (split) parsing strategy -/

def fileStartShort : List Char := ("FILE START:").data

def fileEndFindLit : List Char := ("────── FILE END:").data

def splitTailLit : List Char := ("\n\n────── FILE START:").data

/-- One attempt of the `re.split` delimiter `=+\n\n────── FILE START:` at the
head of `s`: a maximal run of `=` (at least one; a shorter run would be
followed by another `=`, not `\n`, so greediness here is forced) and then the
literal tail. -/
def trySplitDelim (s : List Char) : Option (List Char) :=
  match s with
  | '=' :: t => matchLit splitTailLit (t.dropWhile (fun c => c = '='))
  | _ => none

/-- `re.split(r'=+\n\n────── FILE START:', content)`: left-to-right scan,
segments between non-overlapping delimiter matches. -/
def reSplitSections : Nat → List Char → List Char → List (List Char)
  | 0, acc, s => [acc.reverse ++ s]
  | fuel + 1, acc, s =>
    match trySplitDelim s with
    | some r => acc.reverse :: reSplitSections fuel [] r
    | none =>
      match s with
      | [] => [acc.reverse]
      | c :: t => reSplitSections fuel (c :: acc) t

def reSplit (content : List Char) : List (List Char) :=
  reSplitSections (content.length + 1) [] content

/-- Leftmost occurrence of `pat` in `s` (Python `str.find`, as an option). -/
def findSubAux (pat : List Char) : List Char → Nat → Option Nat
  | s, i =>
    if (matchLit pat s).isSome then some i
    else
      match s with
      | [] => none
      | _ :: t => findSubAux pat t (i + 1)

def findSub (pat s : List Char) : Option Nat := findSubAux pat s 0

/-- The group of `re.search(r'\((.*?)\)', line)` for a fixed `(`: the lazy
group closes at the first `)`; `.` does not cross a newline. -/
def parenClose (acc : List Char) : List Char → Option (List Char)
  | [] => none
  | c :: t =>
    if c = ')' then some acc.reverse
    else if c = '\n' then none
    else parenClose (c :: acc) t

/-- `re.search(r'\((.*?)\)', line)`: leftmost `(` from which a close succeeds. -/
def searchParen : List Char → Option (List Char)
  | [] => none
  | c :: t =>
    if c = '(' then
      match parenClose [] t with
      | some g => some g
      | none => searchParen t
    else searchParen t

/-- After a `(`: can `\(.*?\)\s*$` reach the end of the string?  The lazy group
cannot cross a newline; a `)` either closes (rest all whitespace) or is
swallowed by the group. -/
def parenToEndClose : List Char → Bool
  | [] => false
  | c :: t =>
    if c = ')' then (t.all pyIsSpace || parenToEndClose t)
    else if c = '\n' then false
    else parenToEndClose t

/-- `re.sub(r'\(.*?\)\s*$', '', s)` for `s` without a trailing newline (the
code only applies it to stripped strings, where `$` is the end of the
string): the leftmost viable `(` and everything after it are removed. -/
def subParenEnd : List Char → List Char
  | [] => []
  | c :: t =>
    if c = '(' && parenToEndClose t then []
    else c :: subParenEnd t

/-- The per-section body of `_parse_file_contents_alternative`'s loop. -/
def parseSectionAlt (d : List (List Char × List Char)) (section' : List Char) :
    List (List Char × List Char) :=
  if stripChars section' = [] then d
  else
    match findSub ['\n'] section' with
    | none => d
    | some fle =>
      let header := stripChars (section'.take fle)
      match searchParen header with
      | none => d
      | some g =>
        let filePath := stripChars g
        match findSub fileEndFindLit section' with
        | none => d
        | some ce =>
          let fileContent := stripChars ((section'.take ce).drop (fle + 1))
          let cleaned := stripChars (subParenEnd fileContent)
          dictInsert filePath cleaned d

/-- `_parse_file_contents_alternative`: split at the legacy boundary token,
re-attach a partial first segment when it contains `FILE START:` (the inner
`len(first_parts) > 1` test is always true there, since the split-once on a
contained literal always yields two parts), then run the per-section loop. -/
def parse_file_contents_alternative (content : List Char)
    (d : List (List Char × List Char)) : List (List Char × List Char) :=
  let sections0 := reSplit content
  let sections :=
    match sections0 with
    | [] => []
    | s0 :: rest =>
      if (matchLit fileStartShort s0).isSome then s0 :: rest
      else
        match findSub fileStartShort s0 with
        | some i => (fileStartShort ++ s0.drop (i + fileStartShort.length)) :: rest
        | none => rest
  sections.foldl parseSectionAlt d

/-! ## `_parse_file_contents_robust` -/

inductive ParseStrategy where
  | primary : ParseStrategy
  | alternativeSplit : ParseStrategy
deriving DecidableEq

/-- `_parse_file_contents_robust`, also recording which strategy populated the
dict: the alternative method runs iff the strict pattern matched nothing. -/
def parse_file_contents_robust_run (content : List Char) :
    ParseStrategy × List (List Char × List Char) :=
  let ms := findAllStrict content
  if ms.length = 0 then
    (ParseStrategy.alternativeSplit, parse_file_contents_alternative content [])
  else (ParseStrategy.primary, storeMatches ms [])

def parse_file_contents_robust (content : List Char) : List (List Char × List Char) :=
  (parse_file_contents_robust_run content).2

/-! ## Root-name recovery and `parse_source_file` -/

def rootLit : List Char := ("Directory Structure for:").data

/-- `\s*(.+)` after the root literal: greedy whitespace (backtracking), then a
maximal nonempty run of non-newline characters. -/
def matchRootTail (s : List Char) : Option (List Char) :=
  firstSome (wsAlts s) fun s1 =>
    let g := s1.takeWhile (fun c => c ≠ '\n')
    if g = [] then none else some g

/-- `re.search(r'Directory Structure for:\s*(.+)', content)`. -/
def searchRootLine : List Char → Option (List Char)
  | [] => none
  | c :: t =>
    match (matchLit rootLit (c :: t)).bind matchRootTail with
    | some g => some g
    | none => searchRootLine t

def osSep : Char := '/'

/-- POSIX `os.path.basename`. -/
def basenamePosix (p : List Char) : List Char :=
  (p.reverse.takeWhile (fun c => c ≠ osSep)).reverse

/-- POSIX `os.path.dirname`. -/
def dirnamePosix (p : List Char) : List Char :=
  if osSep ∈ p then
    let head := (p.reverse.dropWhile (fun c => c ≠ osSep)).reverse
    if head.all (fun c => c = osSep) then head
    else (head.reverse.dropWhile (fun c => c = osSep)).reverse
  else []

/-- The lazy group of `\((.+?)\)`: at least one character, no newline, close
at the earliest possible `)`. -/
def rootPathClose (acc : List Char) : List Char → Option (List Char × List Char)
  | [] => none
  | c :: t =>
    if c = ')' && acc ≠ [] then some (acc.reverse, t)
    else if c = '\n' then none
    else rootPathClose (c :: acc) t

/-- `.*?\((.+?)\)` after `FILE START:` (no DOTALL, so confined to one line). -/
def rootScanParen : List Char → Option (List Char × List Char)
  | [] => none
  | c :: t =>
    if c = '(' then
      match rootPathClose [] t with
      | some r => some r
      | none => rootScanParen t
    else if c = '\n' then none
    else rootScanParen t

/-- `re.findall(r'FILE START:.*?\((.+?)\)', content)`. -/
def rootFindAllAux : Nat → List Char → List (List Char)
  | 0, _ => []
  | _, [] => []
  | fuel + 1, s =>
    match (matchLit fileStartShort s).bind rootScanParen with
    | some (g, r) => g :: rootFindAllAux fuel r
    | none =>
      match s with
      | [] => []
      | _ :: t => rootFindAllAux fuel t

def rootFindAll (s : List Char) : List (List Char) := rootFindAllAux s.length s

def defaultRootName : List Char := ("recreated_project").data

/-- The root-directory recovery of `parse_source_file` (lines 56-76). -/
def root_directory_of (content : List Char) : List Char :=
  match searchRootLine content with
  | some g => basenamePosix (stripChars g)
  | none =>
    match rootFindAll content with
    | [] => defaultRootName
    | p :: _ =>
      let d := dirnamePosix p
      if '\\' ∈ d then d.takeWhile (fun c => c ≠ '\\')
      else if osSep ∈ d then d.takeWhile (fun c => c ≠ osSep)
      else defaultRootName

structure ParseSourceResult where
  ok : Bool
  root_directory : List Char
  file_contents : List (List Char × List Char)
deriving DecidableEq

/-- `parse_source_file`: the source file is read only if it exists; a missing
file returns failure.  After that no step of the pure parsing logic can raise,
so the method returns success regardless of how many files were parsed. -/
def parse_source_file (srcExists : Bool) (content : List Char) : ParseSourceResult :=
  if srcExists then
    { ok := true
      root_directory := root_directory_of content
      file_contents := parse_file_contents_robust content }
  else { ok := false, root_directory := [], file_contents := [] }

/-! ## Materializer -/

/-- Decimal rendering of a natural number, Python `str(counter)`. -/
def natToDecAux : Nat → List Char → List Char
  | n, acc =>
    if h : n < 10 then Char.ofNat (48 + n) :: acc
    else natToDecAux (n / 10) (Char.ofNat (48 + n % 10) :: acc)
termination_by n _ => n
decreasing_by exact Nat.div_lt_self (by omega) (by omega)

def natToDec (n : Nat) : List Char := natToDecAux n []

def copySuffix : List Char := ("_copy").data

/-- The `while os.path.exists(...)` loop of `get_unique_directory_name`,
with the filesystem's existing entry names as an explicit finite list.  The
fuel is an upper bound on the iterations actually needed (proved below). -/
def get_unique_directory_name_loop (entries : List (List Char)) (base : List Char) :
    Nat → Nat → List Char → List Char
  | 0, _, newName => newName
  | fuel + 1, counter, newName =>
    if newName ∈ entries then
      get_unique_directory_name_loop entries base fuel (counter + 1)
        (base ++ '_' :: natToDec counter)
    else newName

def get_unique_directory_name (entries : List (List Char)) (root : List Char) : List Char :=
  get_unique_directory_name_loop entries (root ++ copySuffix) (entries.length + 2) 1
    (root ++ copySuffix)

/-- `os.path.join` for an absolute left part without a trailing separator and
a relative right part. -/
def pjoin (a b : List Char) : List Char := a ++ osSep :: b

/-- The separator normalization of `_create_files_complete` (line 263):
`file_path.replace('\\', os.sep).replace('/', os.sep)`. -/
def normalizeSeps (p : List Char) : List Char :=
  (p.map fun c => if c = '\\' then osSep else c).map fun c => if c = '/' then osSep else c

/-- `_create_files_complete`: each dict entry is written to
`target_root/normalized_path` and immediately re-read; in this sequential
filesystem model the read-back always equals what was written, so every file
counts as created and none as failed.  Returns the written (path, content)
pairs in dict order together with the (created, failed) counters. -/
def create_files_complete (targetRoot : List Char)
    (fileContents : List (List Char × List Char)) :
    List (List Char × List Char) × Nat × Nat :=
  (fileContents.map (fun kv => (pjoin targetRoot (normalizeSeps kv.1), kv.2)),
    fileContents.length, 0)
/-! ## Filesystem model and the serializer (`project_generator.py`)

A directory tree is a list of entries; the order of a `children` list is the
order in which the operating system lists the directory (`os.listdir` and
`os.walk` report entries in the same, unspecified, listing order;
`ProjectStructureGenerator` sorts that list, `get_file_contents` does not).
Entry names inside one directory are assumed distinct, as on a real
filesystem. -/

inductive FSTree where
  | file (name content : List Char)
  | dir (name : List Char) (children : List FSTree)

def nameOf : FSTree → List Char
  | .file n _ => n
  | .dir n _ => n

def isDirT : FSTree → Bool
  | .dir _ _ => true
  | .file _ _ => false

def isFileT : FSTree → Bool
  | .file _ _ => true
  | .dir _ _ => false

/-- Python string `<` (lexicographic on code points). -/
def lexLt : List Char → List Char → Bool
  | [], [] => false
  | [], _ :: _ => true
  | _ :: _, [] => false
  | c :: a, d :: b => if c = d then lexLt a b else decide (c < d)

/-- Insertion sort by entry name, modelling `sorted(os.listdir(...))` for
directories whose entry names are distinct. -/
def insertByName (x : FSTree) : List FSTree → List FSTree
  | [] => [x]
  | y :: t => if lexLt (nameOf x) (nameOf y) then x :: y :: t else y :: insertByName x t

def sortByName : List FSTree → List FSTree
  | [] => []
  | x :: t => insertByName x (sortByName t)

def pycacheName : List Char := ("__pycache__").data

theorem sizeOf_insertByName (x : FSTree) (l : List FSTree) :
    sizeOf (insertByName x l) = 1 + sizeOf x + sizeOf l := by
  induction l with
  | nil => simp [insertByName]
  | cons y t ih =>
    simp only [insertByName]
    by_cases h : lexLt (nameOf x) (nameOf y) = true
    · simp only [if_pos h, List.cons.sizeOf_spec] <;> omega
    · simp only [if_neg h, List.cons.sizeOf_spec, ih] <;> omega

theorem sizeOf_sortByName (l : List FSTree) : sizeOf (sortByName l) = sizeOf l := by
  induction l with
  | nil => rfl
  | cons x t ih =>
    simp only [sortByName, sizeOf_insertByName, ih, List.cons.sizeOf_spec]

theorem sizeOf_filterFS_le (p : FSTree → Bool) (l : List FSTree) :
    sizeOf (l.filter p) ≤ sizeOf l := by
  induction l with
  | nil => simp
  | cons x t ih =>
    simp only [List.filter]
    cases p x
    · simp only [List.cons.sizeOf_spec]
      omega
    · simp only [List.cons.sizeOf_spec]
      omega

theorem mem_insertByName {x y : FSTree} {l : List FSTree} :
    x ∈ insertByName y l ↔ x = y ∨ x ∈ l := by
  induction l with
  | nil => simp [insertByName]
  | cons z t ih =>
    simp only [insertByName]
    by_cases h : lexLt (nameOf y) (nameOf z) = true
    · simp only [if_pos h, List.mem_cons] <;> tauto
    · simp only [if_neg h, List.mem_cons, ih] <;> tauto

theorem mem_sortByName {x : FSTree} {l : List FSTree} : x ∈ sortByName l ↔ x ∈ l := by
  induction l with
  | nil => simp [sortByName]
  | cons y t ih => simp [sortByName, mem_insertByName, ih]

/-- The item filter of `ProjectStructureGenerator` (lines 29-35): it applies
both exclusion sets, by bare name only, to every entry. -/
def psgKeep (exD exF : List (List Char)) (c : FSTree) : Bool :=
  !decide (nameOf c = pycacheName) && !decide (nameOf c ∈ exD) && !decide (nameOf c ∈ exF)

def psgItems (cs : List FSTree) (exD exF : List (List Char)) : List FSTree :=
  (sortByName cs).filter (psgKeep exD exF)

theorem sizeOf_psgItems_le (cs : List FSTree) (exD exF : List (List Char)) :
    sizeOf (psgItems cs exD exF) ≤ sizeOf cs := by
  calc sizeOf (psgItems cs exD exF) ≤ sizeOf (sortByName cs) :=
        sizeOf_filterFS_le _ _
    _ = sizeOf cs := sizeOf_sortByName cs

def psgFileLines (fs : List FSTree) (pre : List Char) : List (List Char) :=
  match fs with
  | [] => []
  | f :: rest =>
    (pre ++ (if rest.isEmpty then ("└── ").data else ("├── ").data) ++ nameOf f) ::
      psgFileLines rest pre

/-! `ProjectStructureGenerator`: `psgBodyLines` is the `output` list built by
the two loops (lines 42-65); each recursive call contributes its fully
rendered, newline-joined string as a single element.  The `PermissionError`
branch is unreachable in this model.  `psgRenderDir` is the string returned
by a recursive (non-root) call, where `prefix` is nonempty and no root line
is emitted. -/

mutual

def psgRenderDir (cs : List FSTree) (pre : List Char) (exD exF : List (List Char)) :
    List Char :=
  List.intercalate ['\n'] (psgBodyLines cs pre exD exF)
termination_by 2 * sizeOf cs + 2
decreasing_by
  omega

def psgBodyLines (cs : List FSTree) (pre : List Char) (exD exF : List (List Char)) :
    List (List Char) :=
  psgDirLines ((psgItems cs exD exF).filter isDirT)
      ((psgItems cs exD exF).filter isFileT).isEmpty pre exD exF
    ++ psgFileLines ((psgItems cs exD exF).filter isFileT) pre
termination_by 2 * sizeOf cs + 1
decreasing_by
  have h := sizeOf_psgItems_le cs exD exF
  have h2 := sizeOf_filterFS_le isDirT (psgItems cs exD exF)
  omega

def psgDirLines (ds : List FSTree) (filesEmpty : Bool) (pre : List Char)
    (exD exF : List (List Char)) : List (List Char) :=
  match ds with
  | [] => []
  | d :: rest =>
    let isLast := rest.isEmpty && filesEmpty
    let connector := if isLast then ("└── ").data else ("├── ").data
    let newPre := pre ++ (if isLast then ("    ").data else ("│   ").data)
    (pre ++ connector ++ nameOf d ++ ['/']) ::
      (match d with
       | .dir _ gcs => psgRenderDir gcs newPre exD exF
       | .file _ _ => []) ::
      psgDirLines rest filesEmpty pre exD exF
termination_by 2 * sizeOf ds

end

/-- The initial call of `ProjectStructureGenerator` (`prefix = ""`): the root
line plus the body, newline-joined. -/
def ProjectStructureGenerator (rootName : List Char) (cs : List FSTree)
    (exD exF : List (List Char)) : List Char :=
  List.intercalate ['\n'] ((rootName ++ ['/']) :: psgBodyLines cs [] exD exF)

/-! ## `get_file_contents` (the `os.walk` of lines 84-126) -/

/-- The `dirnames[:]` pruning filter (lines 86-92): a subdirectory survives if
its bare name is not `__pycache__` and neither its bare name nor its joined
path is in `exclude_dirs`. -/
def walkDirKeep (dirpath : List Char) (exD : List (List Char)) (c : FSTree) : Bool :=
  isDirT c && !decide (nameOf c = pycacheName) && !decide (nameOf c ∈ exD)
    && !decide (pjoin dirpath (nameOf c) ∈ exD)

/-- The `filenames` filter (lines 99-103).  The preceding special case for
`directory_structure_output.txt` (lines 95-96) compares a basename (which
contains no separator) with the absolute directory of the script (which does),
so it never fires and is omitted. -/
def walkFileKeep (dirpath : List Char) (exF : List (List Char)) (c : FSTree) : Bool :=
  isFileT c && !decide (nameOf c ∈ exF) && !decide (pjoin dirpath (nameOf c) ∈ exF)

def contentOfEntry : FSTree → List Char
  | .file _ c => c
  | .dir _ _ => []

/-! `walkGroups` mirrors `os.walk(root_dir)` (top-down): one group per visited
directory, in visiting order, holding its `dirpath` and its kept files as
`(filename, rel_path, content)` triples; the walk recurses into the pruned
subdirectory list in listing order.  `rel_path` is relative to the parent of
the scanned root, accumulated in `relDir`. -/

mutual

def walkGroups (dirpath relDir : List Char) (cs : List FSTree)
    (exD exF : List (List Char)) : List (List Char × List (List Char × List Char × List Char)) :=
  (dirpath,
    (cs.filter (walkFileKeep dirpath exF)).map
      (fun f => (nameOf f, pjoin relDir (nameOf f), contentOfEntry f))) ::
    walkSubdirs dirpath relDir (cs.filter (walkDirKeep dirpath exD)) exD exF
termination_by 2 * sizeOf cs + 1
decreasing_by
  have h := sizeOf_filterFS_le (walkDirKeep dirpath exD) cs
  omega

def walkSubdirs (dirpath relDir : List Char) (ds : List FSTree)
    (exD exF : List (List Char)) : List (List Char × List (List Char × List Char × List Char)) :=
  match ds with
  | [] => []
  | d :: rest =>
    (match d with
     | .dir n gcs => walkGroups (pjoin dirpath n) (pjoin relDir n) gcs exD exF
     | .file _ _ => []) ++ walkSubdirs dirpath relDir rest exD exF
termination_by 2 * sizeOf ds

end

def dirLineElem (dirpath : List Char) : List Char :=
  ("\n\n=== Directory: ").data ++ dirpath ++ (" ===\n").data

def startElem (n p : List Char) : List Char :=
  ("\n────── FILE START: ").data ++ n ++ (" (").data ++ p ++ (") ──────\n").data

def endElem (n p : List Char) : List Char :=
  ("\n────── FILE END: ").data ++ n ++ (" (").data ++ p ++ (") ──────").data

/-- The `output` elements contributed by one walked directory (lines 105-124):
nothing when it has no kept files, otherwise its directory banner followed by
a start marker, the raw content and an end marker per file.  All files here
are text files, so the `UnicodeDecodeError` / generic exception branches do
not fire. -/
def groupElems (g : List Char × List (List Char × List Char × List Char)) :
    List (List Char) :=
  if g.2.isEmpty then []
  else dirLineElem g.1 ::
    g.2.flatMap (fun e => [startElem e.1 e.2.1, e.2.2, endElem e.1 e.2.1])

/-- `get_file_contents(root_dir, ...)`: `rootDir` is the absolute scanned root
(whose basename is `rootName`) and `cs` its children. -/
def get_file_contents (rootDir rootName : List Char) (cs : List FSTree)
    (exD exF : List (List Char)) : List Char :=
  List.intercalate ['\n'] ((walkGroups rootDir rootName cs exD exF).flatMap groupElems)

/-- All emitted file triples `(filename, rel_path, content)` in document
order. -/
def walkEntries (rootDir rootName : List Char) (cs : List FSTree)
    (exD exF : List (List Char)) : List (List Char × List Char × List Char) :=
  (walkGroups rootDir rootName cs exD exF).flatMap (fun g => g.2)

/-- The document assembled by `main` of `project_generator.py` (lines 170-178):
header line with the absolute scanned root, structure block, separator line,
`FILE CONTENTS` banner and the contents block.  `parentDir` is the absolute
path of the directory containing the scanned root. -/
def serializeDocument (parentDir rootName : List Char) (cs : List FSTree)
    (exD exF : List (List Char)) : List Char :=
  ("Directory Structure for: ").data ++ pjoin parentDir rootName ++ ("\n\n").data
    ++ ProjectStructureGenerator rootName cs exD exF
    ++ ("\n\n").data ++ List.replicate 80 '=' ++ ("\n\n").data
    ++ ("FILE CONTENTS\n").data
    ++ get_file_contents (pjoin parentDir rootName) rootName cs exD exF

/-! ## C9: uniqueness of the output root name -/

def decVal (l : List Char) : Nat := l.foldl (fun a c => 10 * a + (c.toNat - 48)) 0

theorem char_digit_toNat (m : Nat) (h : m < 10) : (Char.ofNat (48 + m)).toNat = 48 + m := by
  interval_cases m <;> decide

theorem natToDecAux_append (n : Nat) (acc : List Char) :
    natToDecAux n acc = natToDecAux n [] ++ acc := by
  induction n using Nat.strong_induction_on generalizing acc with
  | _ n ih =>
    conv_lhs => rw [natToDecAux]
    conv_rhs => rw [natToDecAux]
    by_cases h : n < 10
    · simp [h]
    · have hlt : n / 10 < n := Nat.div_lt_self (by omega) (by omega)
      simp only [dif_neg h]
      rw [ih (n / 10) hlt (Char.ofNat (48 + n % 10) :: acc),
          ih (n / 10) hlt [Char.ofNat (48 + n % 10)]]
      simp

theorem decVal_natToDec (n : Nat) : decVal (natToDec n) = n := by
  induction n using Nat.strong_induction_on with
  | _ n ih =>
    unfold natToDec
    rw [natToDecAux]
    by_cases h : n < 10
    · simp only [dif_pos h, decVal, List.foldl]
      rw [char_digit_toNat n h]
      omega
    · have hlt : n / 10 < n := Nat.div_lt_self (by omega) (by omega)
      simp only [dif_neg h]
      rw [natToDecAux_append]
      have hmod : n % 10 < 10 := Nat.mod_lt _ (by omega)
      have hih := ih (n / 10) hlt
      have hdef : natToDecAux (n / 10) [] = natToDec (n / 10) := rfl
      rw [hdef]
      unfold decVal at hih ⊢
      rw [List.foldl_append, hih]
      simp only [List.foldl]
      rw [char_digit_toNat (n % 10) hmod]
      omega

theorem natToDec_inj {a b : Nat} (h : natToDec a = natToDec b) : a = b := by
  have h2 := congrArg decVal h
  rwa [decVal_natToDec, decVal_natToDec] at h2

theorem cand_inj (base : List Char) {j k : Nat}
    (h : base ++ '_' :: natToDec j = base ++ '_' :: natToDec k) : j = k := by
  have h2 := List.append_cancel_left h
  exact natToDec_inj (List.cons_injective h2)

theorem loop_of_notMem (entries : List (List Char)) (base : List Char)
    (fuel counter : Nat) (new : List Char) (hnew : new ∉ entries) :
    get_unique_directory_name_loop entries base (fuel + 1) counter new = new := by
  rw [get_unique_directory_name_loop, if_neg hnew]

theorem loop_first (entries : List (List Char)) (base : List Char) :
    ∀ fuel counter new k, new ∈ entries → counter ≤ k → k + 2 ≤ counter + fuel →
    (∀ i, counter ≤ i → i < k → base ++ '_' :: natToDec i ∈ entries) →
    base ++ '_' :: natToDec k ∉ entries →
    get_unique_directory_name_loop entries base fuel counter new =
      base ++ '_' :: natToDec k := by
  intro fuel
  induction fuel with
  | zero => intro counter new k _ h1 h2 _ _; omega
  | succ fuel ih =>
    intro counter new k hnew hck hkf hall hfree
    rw [get_unique_directory_name_loop, if_pos hnew]
    by_cases hk : k = counter
    · subst hk
      have hf1 : 1 ≤ fuel := by omega
      obtain ⟨f, rfl⟩ := Nat.exists_eq_add_of_le hf1
      rw [Nat.add_comm 1 f]
      exact loop_of_notMem entries base f (k + 1) _ hfree
    · exact ih (counter + 1) _ k (hall counter (Nat.le_refl _) (by omega)) (by omega)
        (by omega) (fun i hi1 hi2 => hall i (by omega) hi2) hfree

theorem exists_free_cand (entries : List (List Char)) (base : List Char) :
    ∃ k, 1 ≤ k ∧ k ≤ entries.length + 1 ∧ base ++ '_' :: natToDec k ∉ entries := by
  by_contra hc
  push_neg at hc
  have hinj : Function.Injective (fun i : Nat => base ++ '_' :: natToDec (i + 1)) := by
    intro a b hab
    have := cand_inj base hab
    omega
  have hnd : ((List.range (entries.length + 1)).map
      (fun i => base ++ '_' :: natToDec (i + 1))).Nodup :=
    (List.nodup_range _).map hinj
  have hsub : ((List.range (entries.length + 1)).map
      (fun i => base ++ '_' :: natToDec (i + 1))) ⊆ entries := by
    intro x hx
    simp only [List.mem_map, List.mem_range] at hx
    obtain ⟨i, hi, rfl⟩ := hx
    exact hc (i + 1) (by omega) (by omega)
  have hlen := (List.subperm_of_subset hnd hsub).length_le
  simp at hlen

/-- C9: `get_unique_directory_name` returns `root ++ "_copy"` when that name
does not already exist among the destination directory's entries, and
otherwise `root ++ "_copy_k"` for the smallest `k ≥ 1` whose name is unused;
in all cases the returned name does not name an existing entry. -/
theorem get_unique_directory_name_spec (entries : List (List Char)) (root : List Char) :
    get_unique_directory_name entries root ∉ entries ∧
    (root ++ copySuffix ∉ entries →
      get_unique_directory_name entries root = root ++ copySuffix) ∧
    (root ++ copySuffix ∈ entries →
      ∃ k, 1 ≤ k ∧
        get_unique_directory_name entries root =
          (root ++ copySuffix) ++ '_' :: natToDec k ∧
        (root ++ copySuffix) ++ '_' :: natToDec k ∉ entries ∧
        ∀ j, 1 ≤ j → j < k → (root ++ copySuffix) ++ '_' :: natToDec j ∈ entries) := by
  have hbase : ∀ h : root ++ copySuffix ∉ entries,
      get_unique_directory_name entries root = root ++ copySuffix := by
    intro h
    unfold get_unique_directory_name
    have : entries.length + 2 = (entries.length + 1) + 1 := by omega
    rw [this]
    exact loop_of_notMem entries _ _ _ _ h
  have hex := exists_free_cand entries (root ++ copySuffix)
  have hdec : DecidablePred
      (fun k => 1 ≤ k ∧ (root ++ copySuffix) ++ '_' :: natToDec k ∉ entries) := by
    intro k
    exact inferInstance
  have hex2 : ∃ k, 1 ≤ k ∧ (root ++ copySuffix) ++ '_' :: natToDec k ∉ entries := by
    obtain ⟨k, h1, _, h3⟩ := hex
    exact ⟨k, h1, h3⟩
  have hmem : ∀ hin : root ++ copySuffix ∈ entries,
      ∃ k, 1 ≤ k ∧
        get_unique_directory_name entries root =
          (root ++ copySuffix) ++ '_' :: natToDec k ∧
        (root ++ copySuffix) ++ '_' :: natToDec k ∉ entries ∧
        ∀ j, 1 ≤ j → j < k → (root ++ copySuffix) ++ '_' :: natToDec j ∈ entries := by
    intro hin
    obtain ⟨kw, hkw1, hkw2, hkw3⟩ := hex
    have hfind := Nat.find_spec hex2
    have hfle : Nat.find hex2 ≤ kw := Nat.find_min' hex2 ⟨hkw1, hkw3⟩
    refine ⟨Nat.find hex2, hfind.1, ?_, hfind.2, ?_⟩
    · unfold get_unique_directory_name
      exact loop_first entries _ _ 1 _ (Nat.find hex2) hin hfind.1 (by omega)
        (fun i hi1 hi2 => by
          have hnot := Nat.find_min hex2 hi2
          simp only [not_and, not_not] at hnot
          exact hnot hi1) hfind.2
    · intro j hj1 hj2
      have hnot := Nat.find_min hex2 hj2
      simp only [not_and, not_not] at hnot
      exact hnot hj1
  refine ⟨?_, hbase, hmem⟩
  by_cases hb : root ++ copySuffix ∈ entries
  · obtain ⟨k, _, heq, hfree, _⟩ := hmem hb
    rw [heq]
    exact hfree
  · rw [hbase hb]
    exact hb

theorem get_unique_directory_name_spec_witness :
    ("p_copy").data ∉ ([] : List (List Char)) ∧
      get_unique_directory_name [] ("p").data = ("p").data ++ copySuffix :=
  ⟨by decide, (get_unique_directory_name_spec [] ("p").data).2.1 (by decide)⟩

/-! ## C4: last-write-wins for duplicate declared paths -/

def dictLookup (k : List Char) : List (List Char × List Char) → Option (List Char)
  | [] => none
  | (k1, v1) :: t => if k1 = k then some v1 else dictLookup k t

/-- The stripped content of the last strict match whose stripped path is `p`. -/
def lastStored (ms : List (List Char × List Char × List Char)) (p : List Char) :
    Option (List Char) :=
  match ms with
  | [] => none
  | m :: t =>
    match lastStored t p with
    | some v => some v
    | none => if stripChars m.2.1 = p then some (stripChars m.2.2) else none

theorem dictLookup_dictInsert_self (k v : List Char) (d : List (List Char × List Char)) :
    dictLookup k (dictInsert k v d) = some v := by
  induction d with
  | nil => simp [dictInsert, dictLookup]
  | cons kv t ih =>
    obtain ⟨k1, v1⟩ := kv
    by_cases h : k1 = k
    · simp [dictInsert, h, dictLookup]
    · simp [dictInsert, h, dictLookup, ih]

theorem dictLookup_dictInsert_ne (k k' v : List Char) (d : List (List Char × List Char))
    (h : k ≠ k') : dictLookup k' (dictInsert k v d) = dictLookup k' d := by
  induction d with
  | nil => simp [dictInsert, dictLookup, h]
  | cons kv t ih =>
    obtain ⟨k1, v1⟩ := kv
    by_cases h1 : k1 = k
    · subst h1
      simp [dictInsert, dictLookup, h]
    · simp only [dictInsert, if_neg h1]
      by_cases h2 : k1 = k'
      · simp [dictLookup, h2]
      · simp [dictLookup, h2, ih]

theorem dictLookup_storeMatches (p : List Char) :
    ∀ (ms : List (List Char × List Char × List Char)) (d : List (List Char × List Char)),
    dictLookup p (storeMatches ms d) =
      match lastStored ms p with
      | some v => some v
      | none => dictLookup p d := by
  intro ms
  induction ms with
  | nil => intro d; simp [storeMatches, lastStored]
  | cons m t ih =>
    intro d
    obtain ⟨g1, g2, g3⟩ := m
    rw [storeMatches, ih]
    show _ = (match lastStored ((g1, g2, g3) :: t) p with
      | some v => some v
      | none => dictLookup p d)
    rw [lastStored]
    cases hts : lastStored t p with
    | some v => simp
    | none =>
      simp only []
      by_cases hp : stripChars g2 = p
      · rw [if_pos hp, hp, dictLookup_dictInsert_self]
      · rw [if_neg hp, dictLookup_dictInsert_ne _ _ _ _ hp]

theorem keys_dictInsert_mem (q k v : List Char) (d : List (List Char × List Char)) :
    q ∈ (dictInsert k v d).map Prod.fst ↔ q = k ∨ q ∈ d.map Prod.fst := by
  induction d with
  | nil => simp [dictInsert]
  | cons kv t ih =>
    obtain ⟨k1, v1⟩ := kv
    by_cases h : k1 = k
    · subst h
      simp [dictInsert]
    · simp only [dictInsert, if_neg h, List.map_cons, List.mem_cons, ih]
      tauto

theorem keys_dictInsert_nodup (k v : List Char) (d : List (List Char × List Char))
    (h : (d.map Prod.fst).Nodup) : ((dictInsert k v d).map Prod.fst).Nodup := by
  induction d with
  | nil => simp [dictInsert]
  | cons kv t ih =>
    obtain ⟨k1, v1⟩ := kv
    simp only [List.map_cons, List.nodup_cons] at h
    by_cases hk : k1 = k
    · subst hk
      have hins : dictInsert k1 v ((k1, v1) :: t) = (k1, v) :: t := by
        simp [dictInsert]
      rw [hins, List.map_cons, List.nodup_cons]
      exact h
    · simp only [dictInsert, if_neg hk, List.map_cons, List.nodup_cons,
        keys_dictInsert_mem]
      constructor
      · intro hc
        rcases hc with hc | hc
        · subst hc; exact hk rfl
        · exact h.1 hc
      · exact ih h.2

theorem keys_storeMatches_nodup :
    ∀ (ms : List (List Char × List Char × List Char)) (d : List (List Char × List Char)),
    (d.map Prod.fst).Nodup → ((storeMatches ms d).map Prod.fst).Nodup := by
  intro ms
  induction ms with
  | nil => intro d h; exact h
  | cons m t ih =>
    intro d h
    obtain ⟨g1, g2, g3⟩ := m
    exact ih _ (keys_dictInsert_nodup _ _ _ h)

theorem keys_storeMatches_mem (p : List Char) :
    ∀ (ms : List (List Char × List Char × List Char)) (d : List (List Char × List Char)),
    p ∈ (storeMatches ms d).map Prod.fst ↔
      p ∈ ms.map (fun m => stripChars m.2.1) ∨ p ∈ d.map Prod.fst := by
  intro ms
  induction ms with
  | nil => intro d; simp [storeMatches]
  | cons m t ih =>
    intro d
    obtain ⟨g1, g2, g3⟩ := m
    rw [storeMatches, ih]
    simp only [List.map_cons, List.mem_cons, keys_dictInsert_mem]
    tauto

theorem length_filterKey_of_nodup (p : List Char) :
    ∀ (d : List (List Char × List Char)), (d.map Prod.fst).Nodup →
    (d.filter (fun kv => decide (kv.1 = p))).length =
      if p ∈ d.map Prod.fst then 1 else 0 := by
  intro d
  induction d with
  | nil => intro _; simp
  | cons kv t ih =>
    intro h
    obtain ⟨k1, v1⟩ := kv
    simp only [List.map_cons, List.nodup_cons] at h
    by_cases hk : k1 = p
    · subst hk
      rw [List.filter_cons_of_pos (by simp), List.length_cons, ih h.2, if_neg h.1,
        List.map_cons, if_pos (List.mem_cons_self _ _)]
    · rw [List.filter_cons_of_neg (by simp [hk]), ih h.2, List.map_cons]
      have hiff : (p ∈ k1 :: t.map Prod.fst) ↔ p ∈ t.map Prod.fst := by
        simp only [List.mem_cons]
        constructor
        · rintro (hc | hc)
          · subst hc; exact absurd rfl hk
          · exact hc
        · exact Or.inr
      rw [if_congr hiff rfl rfl]

theorem lastStored_isSome_of_mem (p : List Char)
    (ms : List (List Char × List Char × List Char))
    (h : p ∈ ms.map (fun m => stripChars m.2.1)) : (lastStored ms p).isSome := by
  induction ms with
  | nil => simp at h
  | cons m t ih =>
    rw [lastStored]
    cases hts : lastStored t p with
    | some v => simp
    | none =>
      simp only [List.map_cons, List.mem_cons] at h
      rcases h with h | h
      · simp [h.symm]
      · have := ih h
        rw [hts] at this
        simp at this

/-- C4: if the strict pattern finds two (or more) FILE sections declaring the
same relative path `p`, the parsed map holds exactly one entry for `p`, and
its content is the last such section's (stripped) content: later sections
silently overwrite earlier ones. -/
theorem robust_last_write_wins (content p : List Char)
    (h2 : 2 ≤ ((findAllStrict content).filter
      (fun m => decide (stripChars m.2.1 = p))).length) :
    ((parse_file_contents_robust content).filter
        (fun kv => decide (kv.1 = p))).length = 1 ∧
      dictLookup p (parse_file_contents_robust content) =
        lastStored (findAllStrict content) p := by
  have hne : (findAllStrict content).length ≠ 0 := by
    intro h0
    rw [List.length_eq_zero] at h0
    rw [h0] at h2
    simp at h2
  have hrob : parse_file_contents_robust content =
      storeMatches (findAllStrict content) [] := by
    unfold parse_file_contents_robust parse_file_contents_robust_run
    simp only [if_neg hne]
  have hmem : p ∈ (findAllStrict content).map (fun m => stripChars m.2.1) := by
    have : ((findAllStrict content).filter
        (fun m => decide (stripChars m.2.1 = p))) ≠ [] := by
      intro h0
      rw [h0] at h2
      simp at h2
    obtain ⟨m, hm⟩ := List.exists_mem_of_ne_nil _ this
    have hm2 := List.mem_filter.mp hm
    simp only [decide_eq_true_eq] at hm2
    exact List.mem_map.mpr ⟨m, hm2.1, hm2.2⟩
  constructor
  · rw [hrob]
    rw [length_filterKey_of_nodup p _ (keys_storeMatches_nodup _ [] (by simp))]
    rw [if_pos ((keys_storeMatches_mem p _ []).mpr (Or.inl hmem))]
  · rw [hrob, dictLookup_storeMatches]
    have hsome := lastStored_isSome_of_mem p _ hmem
    cases hls : lastStored (findAllStrict content) p with
    | some v => simp
    | none => rw [hls] at hsome; simp at hsome

def c4Doc : List Char :=
  ("\n────── FILE START: a.txt (p/a.txt) ──────\n\nfirst\n\n────── FILE END: a.txt (p/a.txt) ──────\n\n────── FILE START: a.txt (p/a.txt) ──────\n\nsecond\n\n────── FILE END: a.txt (p/a.txt) ──────").data

set_option maxRecDepth 40000 in
theorem robust_last_write_wins_witness :
    2 ≤ ((findAllStrict c4Doc).filter
        (fun m => decide (stripChars m.2.1 = ("p/a.txt").data))).length ∧
      ((parse_file_contents_robust c4Doc).filter
          (fun kv => decide (kv.1 = ("p/a.txt").data))).length = 1 ∧
        dictLookup ("p/a.txt").data (parse_file_contents_robust c4Doc) =
          lastStored (findAllStrict c4Doc) ("p/a.txt").data :=
  ⟨by decide, robust_last_write_wins c4Doc ("p/a.txt").data (by decide)⟩

/-! ## C6: fallback only on strict failure -/

/-- C6: whenever the strict (single-regex) strategy finds at least one file,
`_parse_file_contents_robust` uses the strict result and never invokes the
alternative split strategy (the only fallback present in the code); the
fallback runs exactly when the strict strategy yields zero files. -/
theorem strict_success_no_fallback (content : List Char)
    (h : 1 ≤ (findAllStrict content).length) :
    (parse_file_contents_robust_run content).1 = ParseStrategy.primary ∧
      (parse_file_contents_robust_run content).2 =
        storeMatches (findAllStrict content) [] := by
  unfold parse_file_contents_robust_run
  have hne : (findAllStrict content).length ≠ 0 := by omega
  simp [hne]

def c6Doc : List Char :=
  ("x\n────── FILE START: a.txt (p/a.txt) ──────\n\nh1\n\n────── FILE END: a.txt (p/a.txt) ──────").data

set_option maxRecDepth 40000 in
theorem strict_success_no_fallback_witness :
    1 ≤ (findAllStrict c6Doc).length ∧
      (parse_file_contents_robust_run c6Doc).1 = ParseStrategy.primary :=
  ⟨by decide, (strict_success_no_fallback c6Doc (by decide)).1⟩

/-! ## C2: when parsing reports failure -/

def c2Doc : List Char := ("hello").data

/-- C2 counterexample: for an existing source document in which every
strategy parses zero files (here `"hello"`, with no FILE sections at all),
`parse_source_file` still returns success, contradicting the claim that
exhausting all strategies is reported as a parse failure. -/
theorem parse_source_file_zero_files_success :
    (parse_source_file true c2Doc).ok = true ∧
      (parse_source_file true c2Doc).file_contents = [] ∧
      findAllStrict c2Doc = [] ∧
      parse_file_contents_alternative c2Doc [] = [] := by decide

/-- C2 amended: `parse_source_file` returns failure exactly when the source
document file is missing; a document on which every fallback strategy yields
zero parsed files is still reported as success (with an empty file map —
emptiness is only rejected later, by `create_project`). -/
theorem parse_source_file_ok_iff (srcExists : Bool) (content : List Char) :
    (parse_source_file srcExists content).ok = false ↔ srcExists = false := by
  cases srcExists <;> simp [parse_source_file]

theorem parse_source_file_ok_iff_witness :
    (parse_source_file false c2Doc).ok = false :=
  (parse_source_file_ok_iff false c2Doc).mpr rfl

/-! ## C3: separator normalization happens at creation, not at parse time -/

def c3Doc : List Char :=
  ("\n────── FILE START: c.txt (a\\b\\c.txt) ──────\n\none\n\n────── FILE END: c.txt (a\\b\\c.txt) ──────\n\n────── FILE START: c.txt (a/b/c.txt) ──────\n\ntwo\n\n────── FILE END: c.txt (a/b/c.txt) ──────").data

set_option maxRecDepth 40000 in
/-- C3 counterexample: a Document declaring `a\b\c.txt` and `a/b/c.txt` is
parsed into TWO map entries with distinct keys — the declared spellings are
stored unchanged, so separators are not normalized before keys are stored. -/
theorem parse_keys_not_normalized :
    (parse_file_contents_robust c3Doc).map Prod.fst =
        [("a\\b\\c.txt").data, ("a/b/c.txt").data] ∧
      ("a\\b\\c.txt").data ≠ ("a/b/c.txt").data := by decide

/-- C3 amended: parsed keys keep their declared separator spelling (see the
counterexample), and normalization to the platform separator happens in
`_create_files_complete`: materializing entries keyed `a\b\c.txt` and
`a/b/c.txt` writes both to the same joined filesystem path. -/
theorem create_files_complete_normalizes (targetRoot c1 c2 : List Char) :
    (create_files_complete targetRoot
        [(("a\\b\\c.txt").data, c1), (("a/b/c.txt").data, c2)]).1 =
      [(pjoin targetRoot ("a/b/c.txt").data, c1),
        (pjoin targetRoot ("a/b/c.txt").data, c2)] := by
  have h1 : normalizeSeps ("a\\b\\c.txt").data = ("a/b/c.txt").data := by decide
  have h2 : normalizeSeps ("a/b/c.txt").data = ("a/b/c.txt").data := by decide
  simp [create_files_complete, h1, h2]

/-! ## C8: root-name recovery -/

def c8Doc : List Char :=
  ("\n────── FILE START: a.txt (proj/a.txt) ──────\n\nh\n\n────── FILE END: a.txt (proj/a.txt) ──────").data

set_option maxRecDepth 40000 in
/-- C8 counterexample: a document with no root-hint line whose first (and
only) FILE section declares `proj/a.txt` recovers the fixed default root name,
not `proj`: the first-path-component rule of the claim is not applied to
two-component paths, because `os.path.dirname` of the path (`proj`) contains
no separator. -/
theorem root_recovery_two_component_default :
    searchRootLine c8Doc = none ∧
      rootFindAll c8Doc = [("proj/a.txt").data] ∧
      root_directory_of c8Doc = defaultRootName ∧
      defaultRootName ≠ ("proj").data := by decide

/-- C8 amended: root recovery precedence as implemented.  (1) If the document
contains a `Directory Structure for:` hint, the root is the basename of the
stripped captured path.  (2) Otherwise, if at least one `FILE START` section
is found, the root is the prefix of `dirname(first declared path)` before the
first `\` when the dirname contains a `\`, else before the first `/` when it
contains a `/`; when the dirname contains no separator at all (declared paths
of one or two components) the fixed default `recreated_project` is used — not
the first path component.  (3) With no sections at all, the default is used. -/
theorem root_directory_of_spec (content : List Char) :
    (∀ g, searchRootLine content = some g →
      root_directory_of content = basenamePosix (stripChars g)) ∧
    (∀ p ps, searchRootLine content = none → rootFindAll content = p :: ps →
      root_directory_of content =
        (if '\\' ∈ dirnamePosix p then
          (dirnamePosix p).takeWhile (fun c => c ≠ '\\')
        else if osSep ∈ dirnamePosix p then
          (dirnamePosix p).takeWhile (fun c => c ≠ osSep)
        else defaultRootName)) ∧
    (searchRootLine content = none → rootFindAll content = [] →
      root_directory_of content = defaultRootName) := by
  refine ⟨?_, ?_, ?_⟩
  · intro g hg
    unfold root_directory_of
    rw [hg]
  · intro p ps hnone hfa
    unfold root_directory_of
    rw [hnone, hfa]
  · intro hnone hfa
    unfold root_directory_of
    rw [hnone, hfa]

def c8Doc2 : List Char :=
  ("\n────── FILE START: a.txt (proj/sub/a.txt) ──────\n\nh\n\n────── FILE END: a.txt (proj/sub/a.txt) ──────").data

set_option maxRecDepth 40000 in
theorem root_directory_of_spec_witness :
    (searchRootLine c8Doc2 = none ∧ rootFindAll c8Doc2 = [("proj/sub/a.txt").data]) ∧
      root_directory_of c8Doc2 = ("proj").data := by
  refine ⟨by decide, ?_⟩
  have h := (root_directory_of_spec c8Doc2).2.1 ("proj/sub/a.txt").data []
    (by decide) (by decide)
  rw [h]
  decide

/-! ## C10: the strict pattern's backreferences force equal name and path -/

theorem matchLit_eq : ∀ (l s r : List Char), matchLit l s = some r → s = l ++ r := by
  intro l
  induction l with
  | nil => intro s r h; simp [matchLit] at h; simp [h]
  | cons c l ih =>
    intro s r h
    cases s with
    | nil => simp [matchLit] at h
    | cons d t =>
      rw [matchLit] at h
      by_cases hc : c = d
      · rw [if_pos hc] at h
        subst hc
        rw [ih t r h, List.cons_append]
      · rw [if_neg hc] at h
        exact absurd h (by simp)

theorem firstSome_eq {α β : Type} (l : List α) (f : α → Option β) {b : β}
    (h : firstSome l f = some b) : ∃ a, a ∈ l ∧ f a = some b := by
  induction l with
  | nil => simp [firstSome] at h
  | cons a t ih =>
    rw [firstSome] at h
    cases hfa : f a with
    | some b2 =>
      rw [hfa] at h
      simp only [Option.some.injEq] at h
      exact ⟨a, List.mem_cons_self _ _, by rw [hfa, h]⟩
    | none =>
      rw [hfa] at h
      obtain ⟨a2, h1, h2⟩ := ih h
      exact ⟨a2, List.mem_cons_of_mem _ h1, h2⟩

theorem mem_wsAlts {s1 s : List Char} (h : s1 ∈ wsAlts s) :
    ∃ w, s = w ++ s1 ∧ ∀ c ∈ w, pyIsSpace c = true := by
  induction s with
  | nil =>
    simp [wsAlts] at h
    exact ⟨[], by simp [h]⟩
  | cons c t ih =>
    rw [wsAlts] at h
    by_cases hc : pyIsSpace c = true
    · rw [if_pos hc] at h
      rcases List.mem_append.mp h with h1 | h1
      · obtain ⟨w, hw, hws⟩ := ih h1
        refine ⟨c :: w, by rw [hw, List.cons_append], ?_⟩
        intro x hx
        rcases List.mem_cons.mp hx with hx | hx
        · rw [hx]; exact hc
        · exact hws x hx
      · simp at h1
        exact ⟨[], by simp [h1]⟩
    · rw [if_neg hc] at h
      simp at h
      exact ⟨[], by simp [h]⟩

theorem mem_dashAlts {s1 s : List Char} (h : s1 ∈ dashAlts s) :
    ∃ d, s = d ++ s1 ∧ d ≠ [] ∧ ∀ c ∈ d, c = boxDash := by
  induction s with
  | nil => simp [dashAlts] at h
  | cons c t ih =>
    rw [dashAlts] at h
    by_cases hc : c = boxDash
    · rw [if_pos hc] at h
      rcases List.mem_append.mp h with h1 | h1
      · obtain ⟨d, hd, hdne, hdall⟩ := ih h1
        refine ⟨c :: d, by rw [hd, List.cons_append], by simp, ?_⟩
        intro x hx
        rcases List.mem_cons.mp hx with hx | hx
        · rw [hx]; exact hc
        · exact hdall x hx
      · simp at h1
        exact ⟨[c], by simp [h1], by simp, by simp [hc]⟩
    · rw [if_neg hc] at h
      simp at h

theorem matchEndTail_decomp (g1 g2 s r : List Char)
    (h : matchEndTail g1 g2 s = some r) :
    ∃ w1 w2, s = w1 ++ g1 ++ w2 ++ '(' :: (g2 ++ ')' :: r) ∧
      (∀ c ∈ w1, pyIsSpace c = true) ∧ (∀ c ∈ w2, pyIsSpace c = true) := by
  unfold matchEndTail at h
  obtain ⟨s1, hmem1, h1⟩ := firstSome_eq _ _ h
  obtain ⟨w1, rfl, hw1⟩ := mem_wsAlts hmem1
  cases hml : matchLit g1 s1 with
  | none => rw [hml] at h1; simp at h1
  | some s2 =>
    rw [hml] at h1
    simp only [Option.some_bind] at h1
    obtain ⟨s3, hmem3, h3⟩ := firstSome_eq _ _ h1
    obtain ⟨w2, rfl, hw2⟩ := mem_wsAlts hmem3
    cases hmp : matchLit ['('] s3 with
    | none => rw [hmp] at h3; simp at h3
    | some s4 =>
      rw [hmp] at h3
      simp only [Option.some_bind] at h3
      cases hmg : matchLit g2 s4 with
      | none => rw [hmg] at h3; simp at h3
      | some s5 =>
        rw [hmg] at h3
        simp only [Option.some_bind] at h3
        have e1 := matchLit_eq _ _ _ hml
        have e2 := matchLit_eq _ _ _ hmp
        have e3 := matchLit_eq _ _ _ hmg
        have e4 := matchLit_eq _ _ _ h3
        refine ⟨w1, w2, ?_, hw1, hw2⟩
        rw [e1, e2, e3, e4]
        simp

theorem matchEndMarker_decomp (g1 g2 s r : List Char)
    (h : matchEndMarker g1 g2 s = some r) :
    ∃ a w3 w4, s = a ++ fileEndLit ++ w3 ++ g1 ++ w4 ++ '(' :: (g2 ++ ')' :: r) ∧
      (∀ c ∈ w3, pyIsSpace c = true) ∧ (∀ c ∈ w4, pyIsSpace c = true) := by
  unfold matchEndMarker at h
  obtain ⟨s1, hmem1, h1⟩ := firstSome_eq _ _ h
  obtain ⟨wa, rfl, _⟩ := mem_wsAlts hmem1
  obtain ⟨s2, hmem2, h2⟩ := firstSome_eq _ _ h1
  obtain ⟨d, rfl, _, _⟩ := mem_dashAlts hmem2
  obtain ⟨s3, hmem3, h3⟩ := firstSome_eq _ _ h2
  obtain ⟨wb, rfl, _⟩ := mem_wsAlts hmem3
  cases hml : matchLit fileEndLit s3 with
  | none => rw [hml] at h3; simp at h3
  | some s4 =>
    rw [hml] at h3
    simp only [Option.some_bind] at h3
    obtain ⟨w3, w4, he, hw3, hw4⟩ := matchEndTail_decomp g1 g2 s4 r h3
    have e1 := matchLit_eq _ _ _ hml
    refine ⟨wa ++ d ++ wb, w3, w4, ?_, hw3, hw4⟩
    rw [e1, he]
    simp

theorem matchContent_decomp (g1 g2 : List Char) :
    ∀ (s acc g3 r : List Char), matchContent g1 g2 acc s = some (g3, r) →
    ∃ mid t, s = mid ++ t ∧ g3 = acc.reverse ++ mid ∧
      matchEndMarker g1 g2 t = some r := by
  intro s
  induction s with
  | nil =>
    intro acc g3 r h
    rw [matchContent] at h
    cases hem : matchEndMarker g1 g2 [] with
    | some r2 =>
      rw [hem] at h
      simp only [Option.some.injEq, Prod.mk.injEq] at h
      exact ⟨[], [], by simp, by simp [h.1.symm], by rw [hem, h.2]⟩
    | none => rw [hem] at h; simp at h
  | cons c t ih =>
    intro acc g3 r h
    rw [matchContent] at h
    cases hem : matchEndMarker g1 g2 (c :: t) with
    | some r2 =>
      rw [hem] at h
      simp only [Option.some.injEq, Prod.mk.injEq] at h
      exact ⟨[], c :: t, by simp, by simp [h.1.symm], by rw [hem, h.2]⟩
    | none =>
      rw [hem] at h
      obtain ⟨mid, t2, he, hg, hm⟩ := ih (c :: acc) g3 r h
      refine ⟨c :: mid, t2, by rw [he, List.cons_append], ?_, hm⟩
      rw [hg]
      simp

theorem matchSep_decomp (g1 g2 s g3 r : List Char)
    (h : matchSep g1 g2 s = some (g3, r)) :
    ∃ b t, s = b ++ t ∧ matchContent g1 g2 [] t = some (g3, r) := by
  unfold matchSep at h
  obtain ⟨s1, hmem1, h1⟩ := firstSome_eq _ _ h
  obtain ⟨wa, rfl, _⟩ := mem_wsAlts hmem1
  obtain ⟨s2, hmem2, h2⟩ := firstSome_eq _ _ h1
  obtain ⟨d, rfl, _, _⟩ := mem_dashAlts hmem2
  obtain ⟨s3, hmem3, h3⟩ := firstSome_eq _ _ h2
  obtain ⟨wb, rfl, _⟩ := mem_wsAlts hmem3
  exact ⟨wa ++ d ++ wb, s3, by simp, h3⟩

theorem matchPath_decomp (g1 : List Char) :
    ∀ (s acc p g3 r : List Char), matchPath g1 acc s = some (p, g3, r) →
    ∃ mid t, s = mid ++ ')' :: t ∧ p = acc.reverse ++ mid ∧
      matchSep g1 p t = some (g3, r) := by
  intro s
  induction s with
  | nil => intro acc p g3 r h; rw [matchPath] at h; exact absurd h (by simp)
  | cons c t ih =>
    intro acc p g3 r h
    rw [matchPath] at h
    by_cases hc : c = ')'
    · rw [if_pos hc] at h
      cases hms : matchSep g1 acc.reverse t with
      | some x =>
        rw [hms] at h
        obtain ⟨xg3, xr⟩ := x
        simp only [Option.some.injEq, Prod.mk.injEq] at h
        subst hc
        refine ⟨[], t, by simp, by simp [h.1.symm], ?_⟩
        rw [← h.1, ← h.2.1, ← h.2.2]
        exact hms
      | none =>
        rw [hms] at h
        obtain ⟨mid, t2, he, hp, hm⟩ := ih (c :: acc) p g3 r h
        refine ⟨c :: mid, t2, by rw [he, List.cons_append], ?_, hm⟩
        rw [hp]; simp
    · rw [if_neg hc] at h
      obtain ⟨mid, t2, he, hp, hm⟩ := ih (c :: acc) p g3 r h
      refine ⟨c :: mid, t2, by rw [he, List.cons_append], ?_, hm⟩
      rw [hp]; simp

theorem matchName_decomp :
    ∀ (s acc g1 p g3 r : List Char), matchName acc s = some (g1, p, g3, r) →
    ∃ mid w t, s = mid ++ w ++ '(' :: t ∧ g1 = acc.reverse ++ mid ∧
      (∀ c ∈ w, pyIsSpace c = true) ∧ matchPath g1 [] t = some (p, g3, r) := by
  intro s
  induction s with
  | nil =>
    intro acc g1 p g3 r h
    rw [matchName] at h
    cases hfs : firstSome (wsAlts []) fun s1 =>
        (matchLit ['('] s1).bind fun t =>
          (matchPath acc.reverse [] t).map fun x => (acc.reverse, x.1, x.2.1, x.2.2) with
    | some x =>
      rw [hfs] at h
      obtain ⟨s1, hmem1, h1⟩ := firstSome_eq _ _ hfs
      obtain ⟨w, hw, hws⟩ := mem_wsAlts hmem1
      cases hml : matchLit ['('] s1 with
      | none => rw [hml] at h1; simp at h1
      | some t2 =>
        rw [hml] at h1
        simp only [Option.some_bind] at h1
        cases hmp : matchPath acc.reverse [] t2 with
        | none => rw [hmp] at h1; simp at h1
        | some x2 =>
          rw [hmp] at h1
          obtain ⟨xp, xg3, xr⟩ := x2
          simp only [Option.map, Option.some.injEq, Prod.mk.injEq] at h1
          simp only [Option.some.injEq] at h
          rw [h] at h1
          simp only [Prod.mk.injEq] at h1
          have e1 := matchLit_eq _ _ _ hml
          refine ⟨[], w, t2, ?_, ?_, hws, ?_⟩
          · rw [List.nil_append, hw, e1]; simp
          · simp only [h1.1.symm]; simp
          · rw [← h1.1, ← h1.2.1, ← h1.2.2.1, ← h1.2.2.2]
            exact hmp
    | none =>
      rw [hfs] at h
      exact absurd h (by simp)
  | cons c t ih =>
    intro acc g1 p g3 r h
    rw [matchName] at h
    cases hfs : firstSome (wsAlts (c :: t)) fun s1 =>
        (matchLit ['('] s1).bind fun t2 =>
          (matchPath acc.reverse [] t2).map fun x => (acc.reverse, x.1, x.2.1, x.2.2) with
    | some x =>
      rw [hfs] at h
      obtain ⟨s1, hmem1, h1⟩ := firstSome_eq _ _ hfs
      obtain ⟨w, hw, hws⟩ := mem_wsAlts hmem1
      cases hml : matchLit ['('] s1 with
      | none => rw [hml] at h1; simp at h1
      | some t2 =>
        rw [hml] at h1
        simp only [Option.some_bind] at h1
        cases hmp : matchPath acc.reverse [] t2 with
        | none => rw [hmp] at h1; simp at h1
        | some x2 =>
          rw [hmp] at h1
          obtain ⟨xp, xg3, xr⟩ := x2
          simp only [Option.map, Option.some.injEq, Prod.mk.injEq] at h1
          simp only [Option.some.injEq] at h
          rw [h] at h1
          simp only [Prod.mk.injEq] at h1
          have e1 := matchLit_eq _ _ _ hml
          refine ⟨[], w, t2, ?_, ?_, hws, ?_⟩
          · rw [List.nil_append, hw, e1]; simp
          · simp only [h1.1.symm]; simp
          · rw [← h1.1, ← h1.2.1, ← h1.2.2.1, ← h1.2.2.2]
            exact hmp
    | none =>
      rw [hfs] at h
      obtain ⟨mid, w, t2, he, hg, hws, hm⟩ := ih (c :: acc) g1 p g3 r h
      refine ⟨c :: mid, w, t2, by rw [he]; simp, ?_, hws, ?_⟩
      · rw [hg]; simp
      · exact hm

/-- C10: every successful strict match decomposes the input so that the FILE
END marker region repeats, byte for byte, the very name `g1` and path `g2`
captured at the FILE START marker (the `\1`/`\2` backreferences).  Hence a
START/END pair whose declared name or path differ can never be the start and
end of one strict match, and contributes no entry to the parsed map under the
strict strategy. -/
theorem strict_match_backrefs_agree (s g1 g2 g3 r : List Char)
    (h : matchSectionAt s = some (g1, g2, g3, r)) :
    ∃ w0 w1 a w3 w4,
      s = fileStartLit ++ w0 ++ g1 ++ w1 ++ '(' ::
          (g2 ++ ')' :: (a ++ fileEndLit ++ w3 ++ g1 ++ w4 ++
            '(' :: (g2 ++ ')' :: r))) ∧
      (∀ c ∈ w0, pyIsSpace c = true) ∧ (∀ c ∈ w1, pyIsSpace c = true) ∧
      (∀ c ∈ w3, pyIsSpace c = true) ∧ (∀ c ∈ w4, pyIsSpace c = true) := by
  unfold matchSectionAt at h
  cases hml : matchLit fileStartLit s with
  | none => rw [hml] at h; simp at h
  | some s1 =>
    rw [hml] at h
    simp only [Option.some_bind] at h
    unfold matchAfterStart at h
    obtain ⟨s2, hmem2, h2⟩ := firstSome_eq _ _ h
    obtain ⟨w0, hw0, hws0⟩ := mem_wsAlts hmem2
    obtain ⟨mid, w1, t, he, hg1, hws1, hmp⟩ := matchName_decomp s2 [] g1 g2 g3 r h2
    obtain ⟨mid2, t2, he2, hg2, hms⟩ := matchPath_decomp g1 t [] g2 g3 r hmp
    obtain ⟨b, t3, he3, hmc⟩ := matchSep_decomp g1 g2 t2 g3 r hms
    obtain ⟨mid3, t4, he4, hg3, hem⟩ := matchContent_decomp g1 g2 t3 [] g3 r hmc
    obtain ⟨a2, w3, w4, he5, hws3, hws4⟩ := matchEndMarker_decomp g1 g2 t4 r hem
    have e0 := matchLit_eq _ _ _ hml
    refine ⟨w0, w1, b ++ mid3 ++ a2, w3, w4, ?_, hws0, hws1, hws3, hws4⟩
    rw [e0, hw0, he, he2, he3, he4, he5]
    simp only [List.reverse_nil, List.nil_append] at hg1 hg2
    rw [← hg1, ← hg2]
    simp

def c10Doc : List Char :=
  ("────── FILE START: a.txt (p/a.txt) ──────\n\nh1\n\n────── FILE END: a.txt (p/a.txt) ──────").data

set_option maxRecDepth 40000 in
theorem strict_match_backrefs_agree_witness :
    matchSectionAt c10Doc =
        some (("a.txt").data, ("p/a.txt").data, ("h1").data, (" ──────").data) ∧
      ∃ w0 w1 a w3 w4,
        c10Doc = fileStartLit ++ w0 ++ ("a.txt").data ++ w1 ++ '(' ::
            (("p/a.txt").data ++ ')' :: (a ++ fileEndLit ++ w3 ++ ("a.txt").data ++ w4 ++
              '(' :: (("p/a.txt").data ++ ')' :: (" ──────").data))) ∧
        (∀ c ∈ w0, pyIsSpace c = true) ∧ (∀ c ∈ w1, pyIsSpace c = true) ∧
        (∀ c ∈ w3, pyIsSpace c = true) ∧ (∀ c ∈ w4, pyIsSpace c = true) :=
  ⟨by decide, strict_match_backrefs_agree c10Doc (("a.txt").data) (("p/a.txt").data)
    (("h1").data) ((" ──────").data) (by decide)⟩

/-! ## Scanning machinery for the serialized document

`NoStartPos glue rest` says that no occurrence of the `FILE START` literal
begins inside `glue` when the input continues with `rest`; the scanner of
`findAllStrict` therefore walks straight through `glue`. -/

def NoStartPos (glue rest : List Char) : Prop :=
  ∀ g2 r2, g2 <:+ glue → g2 ≠ [] → g2 ++ rest ≠ fileStartLit ++ r2

/-- `glue` can never host the beginning of a `FILE START` literal, whatever
follows it. -/
def NSP (glue : List Char) : Prop := ∀ rest, NoStartPos glue rest

theorem fileStartLit_eq :
    fileStartLit = '─' :: '─' :: '─' :: '─' :: '─' :: '─' :: ' ' :: 'F' :: 'I' :: 'L' ::
      'E' :: ' ' :: 'S' :: 'T' :: 'A' :: 'R' :: 'T' :: ':' :: [] := by decide

theorem matchLit_self : ∀ (l r : List Char), matchLit l (l ++ r) = some r := by
  intro l
  induction l with
  | nil => intro r; rfl
  | cons c t ih => intro r; simp [matchLit, ih]

theorem matchSectionAt_lit {s : List Char} {x : List Char × List Char × List Char × List Char}
    (h : matchSectionAt s = some x) : ∃ r2, s = fileStartLit ++ r2 := by
  unfold matchSectionAt at h
  cases hml : matchLit fileStartLit s with
  | none => rw [hml] at h; simp at h
  | some s1 => exact ⟨s1, matchLit_eq _ _ _ hml⟩

theorem matchSectionAt_shorter {s g1 g2 g3 r : List Char}
    (h : matchSectionAt s = some (g1, g2, g3, r)) : r.length < s.length := by
  obtain ⟨w0, w1, a, w3, w4, he, -, -, -, -⟩ := strict_match_backrefs_agree s g1 g2 g3 r h
  have hl := congrArg List.length he
  have h18 : fileStartLit.length = 18 := by decide
  simp [h18] at hl
  omega

theorem findAllAux_nil : ∀ fuel, findAllAux fuel [] = [] := by
  intro fuel
  cases fuel <;> rfl

theorem findAllAux_succ_cons (f : Nat) (c : Char) (t : List Char) :
    findAllAux (f + 1) (c :: t) =
      match matchSectionAt (c :: t) with
      | some (g1, g2, g3, r) => (g1, g2, g3) :: findAllAux f r
      | none => findAllAux f t := rfl

theorem findAllAux_congr : ∀ (n fuel1 fuel2 : Nat) (s : List Char),
    s.length ≤ n → s.length ≤ fuel1 → s.length ≤ fuel2 →
    findAllAux fuel1 s = findAllAux fuel2 s := by
  intro n
  induction n with
  | zero =>
    intro fuel1 fuel2 s hs _ _
    have hnil : s = [] := by
      cases s with
      | nil => rfl
      | cons c t => simp at hs
    subst hnil
    rw [findAllAux_nil, findAllAux_nil]
  | succ n ih =>
    intro fuel1 fuel2 s hs h1 h2
    cases s with
    | nil => rw [findAllAux_nil, findAllAux_nil]
    | cons c t =>
      have hl1 : ∃ f1, fuel1 = f1 + 1 := by
        cases fuel1 with
        | zero => simp at h1
        | succ f => exact ⟨f, rfl⟩
      have hl2 : ∃ f2, fuel2 = f2 + 1 := by
        cases fuel2 with
        | zero => simp at h2
        | succ f => exact ⟨f, rfl⟩
      obtain ⟨f1, rfl⟩ := hl1
      obtain ⟨f2, rfl⟩ := hl2
      rw [findAllAux_succ_cons, findAllAux_succ_cons]
      cases hms : matchSectionAt (c :: t) with
      | some x =>
        obtain ⟨g1, g2, g3, r⟩ := x
        have hr := matchSectionAt_shorter hms
        simp only [List.length_cons] at hs h1 h2 hr
        show (g1, g2, g3) :: findAllAux f1 r = (g1, g2, g3) :: findAllAux f2 r
        rw [ih f1 f2 r (by omega) (by omega) (by omega)]
      | none =>
        simp only [List.length_cons] at hs h1 h2
        show findAllAux f1 t = findAllAux f2 t
        exact ih f1 f2 t (by omega) (by omega) (by omega)

theorem matchSectionAt_nil : matchSectionAt [] = none := by
  unfold matchSectionAt
  rw [fileStartLit_eq]
  rfl

theorem findAllStrict_cons_none {c : Char} {t : List Char}
    (h : matchSectionAt (c :: t) = none) :
    findAllStrict (c :: t) = findAllStrict t := by
  unfold findAllStrict
  simp only [List.length_cons]
  rw [findAllAux_succ_cons, h]

theorem findAllStrict_cons_some {s g1 g2 g3 r : List Char}
    (h : matchSectionAt s = some (g1, g2, g3, r)) :
    findAllStrict s = (g1, g2, g3) :: findAllStrict r := by
  cases s with
  | nil => rw [matchSectionAt_nil] at h; exact absurd h (by simp)
  | cons c t =>
    unfold findAllStrict
    simp only [List.length_cons]
    rw [findAllAux_succ_cons, h]
    have hr := matchSectionAt_shorter h
    simp only [List.length_cons] at hr
    show (g1, g2, g3) :: findAllAux t.length r = (g1, g2, g3) :: findAllAux r.length r
    rw [findAllAux_congr t.length t.length r.length r (by omega) (by omega) (Nat.le_refl _)]

theorem suffix_append_cases {g2 a b : List Char} (h : g2 <:+ a ++ b) :
    g2 <:+ b ∨ ∃ ga, ga <:+ a ∧ ga ≠ [] ∧ g2 = ga ++ b := by
  induction a with
  | nil => exact Or.inl (by simpa using h)
  | cons c a2 ih =>
    rw [List.cons_append, List.suffix_cons_iff] at h
    rcases h with h | h
    · exact Or.inr ⟨c :: a2, List.suffix_refl _, by simp, by rw [h, List.cons_append]⟩
    · rcases ih h with h2 | ⟨ga, hs, hne, he⟩
      · exact Or.inl h2
      · exact Or.inr ⟨ga, hs.trans (List.suffix_cons c a2), hne, he⟩

theorem NoStartPos_append {a b rest : List Char}
    (ha : NoStartPos a (b ++ rest)) (hb : NoStartPos b rest) :
    NoStartPos (a ++ b) rest := by
  intro g2 r2 hsuff hne heq
  rcases suffix_append_cases hsuff with h | ⟨ga, hs, hane, he⟩
  · exact hb g2 r2 h hne heq
  · rw [he, List.append_assoc] at heq
    exact ha ga r2 hs hane heq

theorem NSP_append {a b : List Char} (ha : NSP a) (hb : NSP b) : NSP (a ++ b) :=
  fun rest => NoStartPos_append (ha (b ++ rest)) (hb rest)

theorem NSP_dashfree {a : List Char} (h : ∀ c ∈ a, c ≠ boxDash) : NSP a := by
  intro rest g2 r2 hsuff hne heq
  cases g2 with
  | nil => exact hne rfl
  | cons c t =>
    have hc : c ∈ a := hsuff.subset (List.mem_cons_self _ _)
    have hh := congrArg List.head? heq
    rw [fileStartLit_eq] at hh
    simp at hh
    exact h c hc (by rw [hh]; rfl)

theorem NoStartPos_suffix {a b rest : List Char} (hs : a <:+ b)
    (h : NoStartPos b rest) : NoStartPos a rest :=
  fun g2 r2 hsuff hne heq => h g2 r2 (hsuff.trans hs) hne heq

theorem findAll_skip : ∀ (glue rest : List Char), NoStartPos glue rest →
    findAllStrict (glue ++ rest) = findAllStrict rest := by
  intro glue
  induction glue with
  | nil => intro rest _; rfl
  | cons c t ih =>
    intro rest h
    rw [List.cons_append]
    have hnone : matchSectionAt (c :: (t ++ rest)) = none := by
      cases hms : matchSectionAt (c :: (t ++ rest)) with
      | none => rfl
      | some x =>
        obtain ⟨r2, he⟩ := matchSectionAt_lit hms
        rw [← List.cons_append] at he
        exact absurd he (h (c :: t) r2 (List.suffix_refl _) (by simp))
    rw [findAllStrict_cons_none hnone]
    exact ih rest (NoStartPos_suffix (List.suffix_cons c t) h)

def headNot (p : Char → Bool) (X : List Char) : Prop :=
  ∀ c t, X = c :: t → p c = false

theorem wsAlts_first (w X : List Char) (hw : ∀ c ∈ w, pyIsSpace c = true)
    (hX : headNot pyIsSpace X) : ∃ l2, wsAlts (w ++ X) = X :: l2 := by
  induction w with
  | nil =>
    cases X with
    | nil => exact ⟨[], rfl⟩
    | cons c t =>
      rw [List.nil_append, wsAlts, hX c t rfl]
      exact ⟨[], by simp⟩
  | cons c w2 ih =>
    rw [List.cons_append, wsAlts, hw c (List.mem_cons_self _ _)]
    obtain ⟨l2, hl2⟩ := ih (fun x hx => hw x (List.mem_cons_of_mem _ hx))
    rw [if_pos rfl, hl2]
    exact ⟨l2 ++ [c :: (w2 ++ X)], by simp⟩

theorem dashAlts_nil {X : List Char} (hX : headNot (fun c => decide (c = boxDash)) X) :
    dashAlts X = [] := by
  cases X with
  | nil => rfl
  | cons c t =>
    rw [dashAlts]
    have := hX c t rfl
    simp at this
    rw [if_neg this]

theorem dashAlts_first (X : List Char) (k : Nat) (hk : 1 ≤ k)
    (hX : headNot (fun c => decide (c = boxDash)) X) :
    ∃ l2, dashAlts (List.replicate k boxDash ++ X) = X :: l2 := by
  induction k with
  | zero => omega
  | succ k ih =>
    rw [List.replicate_succ, List.cons_append, dashAlts, if_pos rfl]
    cases k with
    | zero =>
      rw [List.replicate_zero, List.nil_append, dashAlts_nil hX]
      exact ⟨[], rfl⟩
    | succ k2 =>
      obtain ⟨l2, hl2⟩ := ih (by omega)
      rw [hl2]
      exact ⟨l2 ++ [List.replicate (k2 + 1) boxDash ++ X], by simp⟩

theorem firstSome_head {α β : Type} {X : α} {l2 : List α} {f : α → Option β} {b : β}
    (h : f X = some b) : firstSome (X :: l2) f = some b := by
  rw [firstSome, h]

theorem firstSome_none_all {α β : Type} {l : List α} {f : α → Option β}
    (h : ∀ a ∈ l, f a = none) : firstSome l f = none := by
  induction l with
  | nil => rfl
  | cons a t ih =>
    rw [firstSome, h a (List.mem_cons_self _ _)]
    exact ih (fun x hx => h x (List.mem_cons_of_mem _ hx))

/-! ## Matching one well-formed serialized section -/

theorem headNot_cons {p : Char → Bool} {c : Char} {t : List Char} (h : p c = false) :
    headNot p (c :: t) := by
  intro c2 t2 he
  rw [List.cons.injEq] at he
  rw [← he.1]
  exact h

theorem headNot_append {p : Char → Bool} {c : Char} {a t : List Char} (h : p c = false) :
    headNot p ((c :: a) ++ t) := by
  rw [List.cons_append]
  exact headNot_cons h

theorem replicate_dash_head (k : Nat) (Y : List Char) :
    List.replicate (k + 1) boxDash ++ Y = boxDash :: (List.replicate k boxDash ++ Y) := by
  rw [List.replicate_succ, List.cons_append]

theorem headNot_append_of_ne {q : Char → Bool} {n Y : List Char} (hn : n ≠ [])
    (hnh : headNot q n) : headNot q (n ++ Y) := by
  cases n with
  | nil => exact absurd rfl hn
  | cons c t =>
    rw [List.cons_append]
    exact headNot_cons (hnh c t rfl)

theorem matchEndMarker_hit (n p rest w : List Char)
    (hw : ∀ c ∈ w, pyIsSpace c = true) (hn : n ≠ []) (hnh : headNot pyIsSpace n) :
    matchEndMarker n p
      (w ++ (List.replicate 6 boxDash ++ (' ' :: (fileEndLit ++
        (' ' :: (n ++ (' ' :: ('(' :: (p ++ (')' :: rest)))))))))) = some rest := by
  have hXhead : headNot pyIsSpace
      (List.replicate 6 boxDash ++ (' ' :: (fileEndLit ++
        (' ' :: (n ++ (' ' :: ('(' :: (p ++ (')' :: rest))))))))) := by
    rw [replicate_dash_head]
    exact headNot_cons (by decide)
  obtain ⟨l2, hl2⟩ := wsAlts_first w _ hw hXhead
  unfold matchEndMarker
  rw [hl2]
  apply firstSome_head
  have hYhead : headNot (fun c => decide (c = boxDash))
      (' ' :: (fileEndLit ++ (' ' :: (n ++ (' ' :: ('(' :: (p ++ (')' :: rest)))))))) :=
    headNot_cons (by decide)
  obtain ⟨l3, hl3⟩ := dashAlts_first _ 6 (by omega) hYhead
  rw [hl3]
  apply firstSome_head
  have hsp : (' ' :: (fileEndLit ++ (' ' :: (n ++ (' ' :: ('(' :: (p ++ (')' :: rest)))))))) =
      [' '] ++ (fileEndLit ++ (' ' :: (n ++ (' ' :: ('(' :: (p ++ (')' :: rest))))))) := rfl
  rw [hsp]
  have hX2head : headNot pyIsSpace
      (fileEndLit ++ (' ' :: (n ++ (' ' :: ('(' :: (p ++ (')' :: rest))))))) := by
    have : fileEndLit = 'F' :: ("ILE END:").data := by decide
    rw [this, List.cons_append]
    exact headNot_cons (by decide)
  obtain ⟨l4, hl4⟩ := wsAlts_first [' '] _ (by decide) hX2head
  rw [hl4]
  apply firstSome_head
  rw [matchLit_self]
  simp only [Option.some_bind]
  unfold matchEndTail
  have hsp2 : (' ' :: (n ++ (' ' :: ('(' :: (p ++ (')' :: rest)))))) =
      [' '] ++ (n ++ (' ' :: ('(' :: (p ++ (')' :: rest))))) := rfl
  rw [hsp2]
  obtain ⟨l5, hl5⟩ := wsAlts_first [' '] (n ++ (' ' :: ('(' :: (p ++ (')' :: rest)))))
    (by decide) (headNot_append_of_ne hn hnh)
  rw [hl5]
  apply firstSome_head
  rw [matchLit_self]
  simp only [Option.some_bind]
  have hsp3 : (' ' :: ('(' :: (p ++ (')' :: rest)))) =
      [' '] ++ ('(' :: (p ++ (')' :: rest))) := rfl
  rw [hsp3]
  obtain ⟨l6, hl6⟩ := wsAlts_first [' '] ('(' :: (p ++ (')' :: rest)))
    (by decide) (headNot_cons (by decide))
  rw [hl6]
  apply firstSome_head
  have hpar : matchLit ['('] ('(' :: (p ++ (')' :: rest))) = some (p ++ (')' :: rest)) := by
    have := matchLit_self ['('] (p ++ (')' :: rest))
    simpa using this
  rw [hpar]
  simp only [Option.some_bind]
  rw [matchLit_self]
  simp only [Option.some_bind]
  have := matchLit_self [')'] rest
  simpa using this

theorem wsAlts_append_mem : ∀ (c1 glue : List Char), c1 ≠ [] →
    (∀ s2, s2 <:+ c1 → s2 ≠ [] → ∃ ch ∈ s2, pyIsSpace ch = false) →
    ∀ s1 ∈ wsAlts (c1 ++ glue), ∃ c2, c2 <:+ c1 ∧ c2 ≠ [] ∧ s1 = c2 ++ glue := by
  intro c1
  induction c1 with
  | nil => intro glue hne _; exact absurd rfl hne
  | cons ch t ih =>
    intro glue _ hsuf s1 hs1
    rw [List.cons_append, wsAlts] at hs1
    by_cases hws : pyIsSpace ch = true
    · rw [if_pos hws] at hs1
      cases t with
      | nil =>
        obtain ⟨c2, hc2, hcw⟩ := hsuf [ch] (List.suffix_refl _) (by simp)
        simp at hc2
        rw [hc2] at hcw
        rw [hws] at hcw
        simp at hcw
      | cons d t2 =>
        rcases List.mem_append.mp hs1 with h1 | h1
        · obtain ⟨c2, hsf, hne2, he⟩ := ih glue (by simp)
            (fun s2 hs hne3 => hsuf s2 (hs.trans (List.suffix_cons ch _)) hne3) s1 h1
          exact ⟨c2, hsf.trans (List.suffix_cons ch _), hne2, he⟩
        · simp at h1
          exact ⟨ch :: d :: t2, List.suffix_refl _, by simp, by rw [h1]; rfl⟩
    · rw [if_neg hws] at hs1
      simp at hs1
      exact ⟨ch :: t, List.suffix_refl _, by simp, by rw [hs1]; rfl⟩

theorem matchEndMarker_miss (g1 g2 c1 glue : List Char)
    (hne : c1 ≠ []) (hdash : ∀ ch ∈ c1, ch ≠ boxDash)
    (hsuf : ∀ s2, s2 <:+ c1 → s2 ≠ [] → ∃ ch ∈ s2, pyIsSpace ch = false) :
    matchEndMarker g1 g2 (c1 ++ glue) = none := by
  unfold matchEndMarker
  apply firstSome_none_all
  intro s1 hs1
  obtain ⟨c2, hsf, hne2, he⟩ := wsAlts_append_mem c1 glue hne hsuf s1 hs1
  cases c2 with
  | nil => exact absurd rfl hne2
  | cons ch2 t2 =>
    have hch2 : ch2 ≠ boxDash := hdash ch2 (hsf.subset (List.mem_cons_self _ _))
    rw [he, List.cons_append, dashAlts_nil (headNot_cons (decide_eq_false hch2))]
    rfl

theorem matchContent_hit (g1 g2 acc s r : List Char)
    (h : matchEndMarker g1 g2 s = some r) :
    matchContent g1 g2 acc s = some (acc.reverse, r) := by
  cases s with
  | nil =>
    rw [show matchEndMarker g1 g2 [] = none from rfl] at h
    exact Option.noConfusion h
  | cons c t => simp only [matchContent, h]

theorem matchContent_step (g1 g2 acc : List Char) (c : Char) (t : List Char)
    (h : matchEndMarker g1 g2 (c :: t) = none) :
    matchContent g1 g2 acc (c :: t) = matchContent g1 g2 (c :: acc) t := by
  simp only [matchContent, h]

theorem matchContent_walk (g1 g2 r : List Char) : ∀ (c1 acc glue : List Char),
    (∀ ch ∈ c1, ch ≠ boxDash) →
    (∀ s2, s2 <:+ c1 → s2 ≠ [] → ∃ ch ∈ s2, pyIsSpace ch = false) →
    matchEndMarker g1 g2 glue = some r →
    matchContent g1 g2 acc (c1 ++ glue) = some (acc.reverse ++ c1, r) := by
  intro c1
  induction c1 with
  | nil =>
    intro acc glue _ _ hglue
    rw [List.nil_append, matchContent_hit g1 g2 acc glue r hglue, List.append_nil]
  | cons ch t ih =>
    intro acc glue hdash hsuf hglue
    have hmiss : matchEndMarker g1 g2 ((ch :: t) ++ glue) = none :=
      matchEndMarker_miss g1 g2 (ch :: t) glue (by simp) hdash hsuf
    rw [List.cons_append] at hmiss
    rw [List.cons_append, matchContent_step g1 g2 acc ch (t ++ glue) hmiss]
    rw [ih (ch :: acc) glue (fun x hx => hdash x (List.mem_cons_of_mem _ hx))
      (fun s2 hs hne3 => hsuf s2 (hs.trans (List.suffix_cons ch _)) hne3) hglue]
    simp

/-- The byte layout between the declared path of the start marker and the rest
of the document after the matched section: closing dashes, blank padding, the
raw content, blank padding and the end marker up to its `(path)`. -/
def sepStr (n p c rest : List Char) : List Char :=
  ' ' :: (List.replicate 6 boxDash ++ ('\n' :: ('\n' :: (c ++
    ('\n' :: ('\n' :: (List.replicate 6 boxDash ++ (' ' :: (fileEndLit ++
      (' ' :: (n ++ (' ' :: ('(' :: (p ++ (')' :: rest)))))))))))))))

theorem matchSep_hit (n p c rest : List Char)
    (hn : n ≠ []) (hnh : headNot pyIsSpace n)
    (hcd : ∀ ch ∈ c, ch ≠ boxDash) (hch : headNot pyIsSpace c)
    (hcs : ∀ s2, s2 <:+ c → s2 ≠ [] → ∃ ch ∈ s2, pyIsSpace ch = false) :
    matchSep n p (sepStr n p c rest) = some (c, rest) := by
  unfold matchSep sepStr
  have hXhead : headNot pyIsSpace
      (List.replicate 6 boxDash ++ ('\n' :: ('\n' :: (c ++
        ('\n' :: ('\n' :: (List.replicate 6 boxDash ++ (' ' :: (fileEndLit ++
          (' ' :: (n ++ (' ' :: ('(' :: (p ++ (')' :: rest))))))))))))))) := by
    rw [replicate_dash_head]
    exact headNot_cons (by decide)
  have hsp : (' ' :: (List.replicate 6 boxDash ++ ('\n' :: ('\n' :: (c ++
      ('\n' :: ('\n' :: (List.replicate 6 boxDash ++ (' ' :: (fileEndLit ++
        (' ' :: (n ++ (' ' :: ('(' :: (p ++ (')' :: rest))))))))))))))))
      = [' '] ++ (List.replicate 6 boxDash ++ ('\n' :: ('\n' :: (c ++
      ('\n' :: ('\n' :: (List.replicate 6 boxDash ++ (' ' :: (fileEndLit ++
        (' ' :: (n ++ (' ' :: ('(' :: (p ++ (')' :: rest))))))))))))))) := rfl
  rw [hsp]
  obtain ⟨l1, hl1⟩ := wsAlts_first [' '] _ (by decide) hXhead
  rw [hl1]
  apply firstSome_head
  obtain ⟨l2, hl2⟩ := dashAlts_first
    ('\n' :: ('\n' :: (c ++ ('\n' :: ('\n' :: (List.replicate 6 boxDash ++ (' ' :: (fileEndLit ++
      (' ' :: (n ++ (' ' :: ('(' :: (p ++ (')' :: rest))))))))))))))
    6 (by omega) (headNot_cons (by decide))
  rw [hl2]
  apply firstSome_head
  cases hc0 : c with
  | nil =>
    subst hc0
    have hend := matchEndMarker_hit n p rest [] (by simp) hn hnh
    rw [List.nil_append] at hend
    have hsp2 : ('\n' :: ('\n' :: (([] : List Char) ++ ('\n' :: ('\n' ::
        (List.replicate 6 boxDash ++ (' ' :: (fileEndLit ++
          (' ' :: (n ++ (' ' :: ('(' :: (p ++ (')' :: rest)))))))))))))) =
        ['\n', '\n', '\n', '\n'] ++ (List.replicate 6 boxDash ++ (' ' :: (fileEndLit ++
          (' ' :: (n ++ (' ' :: ('(' :: (p ++ (')' :: rest))))))))) := rfl
    rw [hsp2]
    obtain ⟨l3, hl3⟩ := wsAlts_first ['\n', '\n', '\n', '\n']
      (List.replicate 6 boxDash ++ (' ' :: (fileEndLit ++
        (' ' :: (n ++ (' ' :: ('(' :: (p ++ (')' :: rest)))))))))
      (by decide)
      (by rw [replicate_dash_head]; exact headNot_cons (by decide))
    rw [hl3]
    apply firstSome_head
    rw [matchContent_hit n p [] _ rest hend]
    rfl
  | cons c0 ct =>
    rw [← hc0]
    have hcne : c ≠ [] := by rw [hc0]; simp
    have hsp2 : ('\n' :: ('\n' :: (c ++ ('\n' :: ('\n' ::
        (List.replicate 6 boxDash ++ (' ' :: (fileEndLit ++
          (' ' :: (n ++ (' ' :: ('(' :: (p ++ (')' :: rest)))))))))))))) =
        ['\n', '\n'] ++ (c ++ (['\n', '\n'] ++ (List.replicate 6 boxDash ++ (' ' :: (fileEndLit ++
          (' ' :: (n ++ (' ' :: ('(' :: (p ++ (')' :: rest))))))))))) := rfl
    rw [hsp2]
    obtain ⟨l3, hl3⟩ := wsAlts_first ['\n', '\n']
      (c ++ (['\n', '\n'] ++ (List.replicate 6 boxDash ++ (' ' :: (fileEndLit ++
        (' ' :: (n ++ (' ' :: ('(' :: (p ++ (')' :: rest)))))))))))
      (by decide) (headNot_append_of_ne hcne hch)
    rw [hl3]
    apply firstSome_head
    have hend := matchEndMarker_hit n p rest ['\n', '\n'] (by decide) hn hnh
    rw [matchContent_walk n p rest c [] _ hcd hcs hend]
    rfl

theorem wsAlts_single {c : Char} {t : List Char} (h : pyIsSpace c = false) :
    wsAlts (c :: t) = [c :: t] := by
  rw [wsAlts]
  simp [h]

theorem matchPath_close (g1 acc t g3 r : List Char)
    (h : matchSep g1 acc.reverse t = some (g3, r)) :
    matchPath g1 acc (')' :: t) = some (acc.reverse, g3, r) := by
  simp only [matchPath, if_pos rfl, h]
  simp

theorem matchPath_skip (g1 acc : List Char) (c : Char) (t : List Char) (hc : c ≠ ')') :
    matchPath g1 acc (c :: t) = matchPath g1 (c :: acc) t := by
  simp only [matchPath, if_neg hc]

theorem matchPath_walk (g1 c rest pFull : List Char)
    (hn : g1 ≠ []) (hnh : headNot pyIsSpace g1)
    (hcd : ∀ ch ∈ c, ch ≠ boxDash) (hch : headNot pyIsSpace c)
    (hcs : ∀ s2, s2 <:+ c → s2 ≠ [] → ∃ ch ∈ s2, pyIsSpace ch = false) :
    ∀ (p1 acc : List Char), (∀ ch ∈ p1, ch ≠ ')') → acc.reverse ++ p1 = pFull →
    matchPath g1 acc (p1 ++ (')' :: sepStr g1 pFull c rest)) = some (pFull, c, rest) := by
  intro p1
  induction p1 with
  | nil =>
    intro acc _ hacc
    rw [List.append_nil] at hacc
    rw [List.nil_append, matchPath_close g1 acc _ c rest
      (by rw [hacc]; exact matchSep_hit g1 pFull c rest hn hnh hcd hch hcs), hacc]
  | cons ch t ih =>
    intro acc hp hacc
    rw [List.cons_append, matchPath_skip g1 acc ch _ (hp ch (List.mem_cons_self _ _))]
    apply ih (ch :: acc) (fun x hx => hp x (List.mem_cons_of_mem _ hx))
    rw [List.reverse_cons, List.append_assoc]
    simpa using hacc

theorem matchName_hit (acc s : List Char) (x : List Char × List Char × List Char × List Char)
    (h : (firstSome (wsAlts s) fun s1 => (matchLit ['('] s1).bind fun t =>
      (matchPath acc.reverse [] t).map fun y => (acc.reverse, y.1, y.2.1, y.2.2)) = some x) :
    matchName acc s = some x := by
  cases s with
  | nil =>
    exact Option.noConfusion
      (show (none : Option (List Char × List Char × List Char × List Char)) = some x from h)
  | cons c t => simp only [matchName, h]

theorem matchName_step (acc : List Char) (c : Char) (t : List Char)
    (h : (firstSome (wsAlts (c :: t)) fun s1 => (matchLit ['('] s1).bind fun u =>
      (matchPath acc.reverse [] u).map fun y => (acc.reverse, y.1, y.2.1, y.2.2)) = none) :
    matchName acc (c :: t) = matchName (c :: acc) t := by
  simp only [matchName, h]

theorem matchName_walk (p c rest nFull : List Char)
    (hn : nFull ≠ []) (hnh : headNot pyIsSpace nFull)
    (hp : ∀ ch ∈ p, ch ≠ ')')
    (hcd : ∀ ch ∈ c, ch ≠ boxDash) (hch : headNot pyIsSpace c)
    (hcs : ∀ s2, s2 <:+ c → s2 ≠ [] → ∃ ch ∈ s2, pyIsSpace ch = false) :
    ∀ (n1 acc : List Char),
    (∀ ch ∈ n1, pyIsSpace ch = false ∧ ch ≠ '(') →
    acc.reverse ++ n1 = nFull →
    matchName acc (n1 ++ (' ' :: ('(' :: (p ++ (')' :: sepStr nFull p c rest)))))
      = some (nFull, p, c, rest) := by
  intro n1
  induction n1 with
  | nil =>
    intro acc _ hacc
    rw [List.append_nil] at hacc
    rw [List.nil_append]
    apply matchName_hit
    rw [show (' ' :: ('(' :: (p ++ (')' :: sepStr nFull p c rest))))
      = [' '] ++ ('(' :: (p ++ (')' :: sepStr nFull p c rest))) from rfl]
    obtain ⟨l1, hl1⟩ := wsAlts_first [' '] ('(' :: (p ++ (')' :: sepStr nFull p c rest)))
      (by decide) (headNot_cons (by decide))
    rw [hl1]
    apply firstSome_head
    show ((matchLit ['('] ('(' :: (p ++ (')' :: sepStr nFull p c rest)))).bind fun t =>
      (matchPath acc.reverse [] t).map fun y => (acc.reverse, y.1, y.2.1, y.2.2)) = _
    have hlit : matchLit ['('] ('(' :: (p ++ (')' :: sepStr nFull p c rest)))
        = some (p ++ (')' :: sepStr nFull p c rest)) := by
      rw [show ('(' :: (p ++ (')' :: sepStr nFull p c rest)))
        = ['('] ++ (p ++ (')' :: sepStr nFull p c rest)) from rfl]
      exact matchLit_self _ _
    rw [hlit]
    show ((matchPath acc.reverse [] (p ++ (')' :: sepStr nFull p c rest))).map
      fun y => (acc.reverse, y.1, y.2.1, y.2.2)) = _
    rw [hacc]
    rw [matchPath_walk nFull c rest p hn hnh hcd hch hcs p [] hp (by simp)]
    rfl
  | cons ch t ih =>
    intro acc hchs hacc
    obtain ⟨hws, hpar⟩ := hchs ch (List.mem_cons_self _ _)
    rw [List.cons_append]
    have hnone : (firstSome (wsAlts (ch :: (t ++ (' ' :: ('(' ::
        (p ++ (')' :: sepStr nFull p c rest))))))) fun s1 =>
        (matchLit ['('] s1).bind fun u =>
          (matchPath acc.reverse [] u).map fun y => (acc.reverse, y.1, y.2.1, y.2.2)) = none := by
      rw [wsAlts_single hws]
      apply firstSome_none_all
      intro a ha
      simp only [List.mem_singleton] at ha
      subst ha
      rw [matchLit, if_neg (fun hh => hpar hh.symm)]
      rfl
    rw [matchName_step acc ch _ hnone]
    apply ih (ch :: acc) (fun x hx => hchs x (List.mem_cons_of_mem _ hx))
    rw [List.reverse_cons, List.append_assoc]
    simpa using hacc

theorem matchSectionAt_hit (n p c rest : List Char)
    (hn : n ≠ []) (hnh : headNot pyIsSpace n)
    (hnc : ∀ ch ∈ n, pyIsSpace ch = false ∧ ch ≠ '(')
    (hp : ∀ ch ∈ p, ch ≠ ')')
    (hcd : ∀ ch ∈ c, ch ≠ boxDash) (hch : headNot pyIsSpace c)
    (hcs : ∀ s2, s2 <:+ c → s2 ≠ [] → ∃ ch ∈ s2, pyIsSpace ch = false) :
    matchSectionAt (fileStartLit ++
        (' ' :: (n ++ (' ' :: ('(' :: (p ++ (')' :: sepStr n p c rest)))))))
      = some (n, p, c, rest) := by
  unfold matchSectionAt
  rw [matchLit_self]
  show matchAfterStart (' ' :: (n ++ (' ' :: ('(' :: (p ++ (')' :: sepStr n p c rest)))))) = _
  unfold matchAfterStart
  rw [show (' ' :: (n ++ (' ' :: ('(' :: (p ++ (')' :: sepStr n p c rest))))))
    = [' '] ++ (n ++ (' ' :: ('(' :: (p ++ (')' :: sepStr n p c rest))))) from rfl]
  obtain ⟨l1, hl1⟩ := wsAlts_first [' ']
    (n ++ (' ' :: ('(' :: (p ++ (')' :: sepStr n p c rest)))))
    (by decide) (headNot_append_of_ne hn hnh)
  rw [hl1]
  apply firstSome_head
  exact matchName_walk p c rest n hn hnh hp hcd hch hcs n [] hnc (by simp)

/-! ## Scanning the serialized contents block -/

/-- The contents block seen as: each element preceded by the joining newline. -/
def tailJoin (l : List (List Char)) : List Char := l.flatMap (fun y => '\n' :: y)

theorem tailJoin_append (a b : List (List Char)) :
    tailJoin (a ++ b) = tailJoin a ++ tailJoin b := by
  simp [tailJoin]

theorem tailJoin_cons (x : List Char) (t : List (List Char)) :
    tailJoin (x :: t) = '\n' :: (x ++ tailJoin t) := by
  simp [tailJoin]

theorem intercalate_nl_cons : ∀ (t : List (List Char)) (x : List Char),
    List.intercalate ['\n'] (x :: t) = x ++ tailJoin t := by
  intro t
  induction t with
  | nil => intro x; simp [List.intercalate, tailJoin]
  | cons y t2 ih =>
    intro x
    rw [tailJoin_cons]
    rw [List.intercalate, List.intersperse_cons_cons, List.flatten_cons, List.flatten_cons]
    rw [show List.flatten (List.intersperse ['\n'] (y :: t2))
      = List.intercalate ['\n'] (y :: t2) from rfl]
    rw [ih y]
    simp

/-- The shape of the stream after a section: empty or newline-headed. -/
def nlShape (r : List Char) : Prop := r = [] ∨ ∃ t2, r = '\n' :: t2

theorem nlShape_tailJoin_append (l : List (List Char)) (r : List Char) (h : nlShape r) :
    nlShape (tailJoin l ++ r) := by
  cases l with
  | nil => simpa [tailJoin]
  | cons x t => exact Or.inr ⟨x ++ tailJoin t ++ r, by rw [tailJoin_cons]; simp⟩

theorem NoStartPos_trailer (r : List Char) (hr : nlShape r) :
    NoStartPos (' ' :: List.replicate 6 boxDash) r := by
  intro g2 r2 hsuff hne heq
  rcases List.suffix_cons_iff.mp hsuff with h | h
  · rw [h, fileStartLit_eq] at heq
    have hh := congrArg List.head? heq
    simp at hh
  · have hg2 : g2 = List.replicate g2.length boxDash := by
      have hsub : ∀ x ∈ g2, x = boxDash := fun x hx => List.eq_of_mem_replicate (h.subset hx)
      exact List.eq_replicate_length.mpr hsub
    have hlen : g2.length ≤ 6 := by simpa using h.length_le
    have hfs : fileStartLit = List.replicate g2.length boxDash ++
        (List.replicate (6 - g2.length) boxDash ++ (' ' :: ("FILE START:").data)) := by
      rw [← List.append_assoc, ← List.replicate_add]
      have h6 : g2.length + (6 - g2.length) = 6 := by omega
      rw [h6]
      decide
    rw [hg2, hfs] at heq
    simp only [List.append_assoc] at heq
    have heq2 := List.append_cancel_left heq
    rcases hr with hr | ⟨t2, hr⟩
    · subst hr
      have hl := congrArg List.length heq2
      simp at hl
      omega
    · subst hr
      cases h6 : 6 - g2.length with
      | zero => rw [h6] at heq2; simp at heq2
      | succ m =>
        rw [h6, List.replicate_succ] at heq2
        simp [boxDash] at heq2

theorem headNot_of_strip (c : List Char) (h : stripChars c = c) : headNot pyIsSpace c := by
  intro ch t he
  cases hws : pyIsSpace ch
  · rfl
  · exfalso
    have hlen : (stripChars c).length < c.length := by
      rw [he]
      unfold stripChars lstripChars
      rw [List.dropWhile_cons]
      simp only [hws, if_true]
      have a1 : (List.dropWhile (fun c => pyIsSpace c) t).length ≤ t.length :=
        (List.dropWhile_suffix _).length_le
      have a2 : (List.dropWhile (fun c => pyIsSpace c)
            (List.dropWhile (fun c => pyIsSpace c) t).reverse).length
          ≤ (List.dropWhile (fun c => pyIsSpace c) t).reverse.length :=
        (List.dropWhile_suffix _).length_le
      simp only [List.length_reverse, List.length_cons]
      simp only [List.length_reverse] at a2
      omega
    rw [h] at hlen
    exact absurd hlen (lt_irrefl _)

theorem lastNot_of_strip (c : List Char) (h : stripChars c = c) (hne : c ≠ []) :
    pyIsSpace (c.getLast hne) = false := by
  cases hws : pyIsSpace (c.getLast hne)
  · rfl
  · exfalso
    have hlen : (stripChars c).length < c.length := by
      by_cases hl : (lstripChars c).length = c.length
      · have heq : lstripChars c = c := (List.dropWhile_suffix _).sublist.eq_of_length hl
        unfold stripChars
        rw [heq]
        have hrev : c.reverse ≠ [] := by simpa using hne
        have hhead : c.reverse = c.getLast hne :: c.reverse.tail := by
          have h0 := (List.head_cons_tail c.reverse hrev).symm
          rwa [List.head_reverse] at h0
        rw [hhead, List.dropWhile_cons]
        simp only [hws, if_true]
        have a1 : (List.dropWhile (fun c => pyIsSpace c) c.reverse.tail).length
            ≤ c.reverse.tail.length := (List.dropWhile_suffix _).length_le
        have a2 : c.reverse.tail.length = c.length - 1 := by
          simp [List.length_tail]
        simp only [List.length_reverse]
        have hcpos : 0 < c.length := List.length_pos.mpr hne
        omega
      · have a1 : (List.dropWhile (fun c => pyIsSpace c) c).length ≤ c.length :=
          (List.dropWhile_suffix _).length_le
        have a2 : (List.dropWhile (fun c => pyIsSpace c) (lstripChars c).reverse).length
            ≤ (lstripChars c).reverse.length := (List.dropWhile_suffix _).length_le
        unfold stripChars
        unfold lstripChars at *
        simp only [List.length_reverse] at *
        omega
    rw [h] at hlen
    exact absurd hlen (lt_irrefl _)

theorem suffix_nonws_of_strip (c : List Char) (h : stripChars c = c) :
    ∀ s2, s2 <:+ c → s2 ≠ [] → ∃ ch ∈ s2, pyIsSpace ch = false := by
  intro s2 hs hne
  have hcne : c ≠ [] := by
    intro hc
    subst hc
    exact hne (List.suffix_nil.mp hs)
  obtain ⟨w, hw⟩ := hs
  have hgl : c.getLast hcne = s2.getLast hne := by
    subst hw
    exact List.getLast_append' _ _ hne
  exact ⟨s2.getLast hne, List.getLast_mem hne, by rw [← hgl]; exact lastNot_of_strip c h hcne⟩

theorem section_bytes (n p c TAIL : List Char) :
    startElem n p ++ '\n' :: (c ++ ('\n' :: (endElem n p ++ TAIL))) =
    '\n' :: (fileStartLit ++ (' ' :: (n ++ (' ' :: ('(' :: (p ++ (')' ::
      sepStr n p c (' ' :: (List.replicate 6 boxDash ++ TAIL))))))))) := by
  have h1 : ("\n────── FILE START: ").data = '\n' :: (fileStartLit ++ [' ']) := by decide
  have h2 : (" (").data = [' ', '('] := by decide
  have h3 : (") ──────\n").data = ')' :: (' ' :: (List.replicate 6 boxDash ++ ['\n'])) := by decide
  have h4 : ("\n────── FILE END: ").data
      = '\n' :: (List.replicate 6 boxDash ++ (' ' :: (fileEndLit ++ [' ']))) := by decide
  have h5 : (") ──────").data = ')' :: (' ' :: List.replicate 6 boxDash) := by decide
  rw [startElem, endElem, sepStr, h1, h2, h3, h4, h5]
  simp

/-- The three output elements of one emitted file (lines 111-118). -/
def chunkOf (es : List (List Char × List Char × List Char)) : List (List Char) :=
  es.flatMap (fun e => [startElem e.1 e.2.1, e.2.2, endElem e.1 e.2.1])

/-- The well-formedness of one emitted triple under which the strict pattern
recovers it exactly: a nonempty name without whitespace or `(`, a path without
`)`, and a dash-free content equal to its own strip. -/
def wfTriple (e : List Char × List Char × List Char) : Prop :=
  e.1 ≠ [] ∧ (∀ ch ∈ e.1, pyIsSpace ch = false ∧ ch ≠ '(') ∧
  (∀ ch ∈ e.2.1, ch ≠ ')') ∧
  (∀ ch ∈ e.2.2, ch ≠ boxDash) ∧ stripChars e.2.2 = e.2.2

theorem findAllStrict_nl (X : List Char) : findAllStrict ('\n' :: X) = findAllStrict X := by
  have h := findAll_skip ['\n'] X (NSP_dashfree (by decide) X)
  simpa using h

theorem scan_entries : ∀ (es : List (List Char × List Char × List Char)) (r : List Char),
    (∀ e ∈ es, wfTriple e) → nlShape r →
    findAllStrict (tailJoin (chunkOf es) ++ r)
      = es.map (fun e => (e.1, e.2.1, e.2.2)) ++ findAllStrict r := by
  intro es
  induction es with
  | nil => intro r _ _; simp [chunkOf, tailJoin]
  | cons e t ih =>
    intro r hwf hr
    obtain ⟨n, p, c⟩ := e
    obtain ⟨hn, hnc, hpc, hcd, hcs⟩ := hwf (n, p, c) (List.mem_cons_self _ _)
    have hchunk : chunkOf ((n, p, c) :: t) = [startElem n p, c, endElem n p] ++ chunkOf t := by
      simp [chunkOf]
    rw [hchunk, tailJoin_append]
    have htj : tailJoin [startElem n p, c, endElem n p]
        = '\n' :: (startElem n p ++ ('\n' :: (c ++ ('\n' :: endElem n p)))) := by
      simp [tailJoin]
    rw [htj, List.append_assoc]
    have hstream : ('\n' :: (startElem n p ++ ('\n' :: (c ++ ('\n' :: endElem n p)))))
        ++ (tailJoin (chunkOf t) ++ r)
        = '\n' :: (startElem n p ++ ('\n' :: (c ++ ('\n' :: (endElem n p
            ++ (tailJoin (chunkOf t) ++ r)))))) := by
      simp
    rw [hstream, findAllStrict_nl, section_bytes, findAllStrict_nl]
    have hhit := matchSectionAt_hit n p c
      (' ' :: (List.replicate 6 boxDash ++ (tailJoin (chunkOf t) ++ r)))
      hn (fun ch tl he => (hnc ch (he ▸ List.mem_cons_self ch tl)).1) hnc hpc hcd
      (headNot_of_strip c hcs) (suffix_nonws_of_strip c hcs)
    rw [findAllStrict_cons_some hhit]
    have hshape : nlShape (tailJoin (chunkOf t) ++ r) := nlShape_tailJoin_append _ _ hr
    have hskip : findAllStrict ((' ' :: List.replicate 6 boxDash) ++ (tailJoin (chunkOf t) ++ r))
        = findAllStrict (tailJoin (chunkOf t) ++ r) :=
      findAll_skip _ _ (NoStartPos_trailer _ hshape)
    rw [show (' ' :: (List.replicate 6 boxDash ++ (tailJoin (chunkOf t) ++ r)))
      = (' ' :: List.replicate 6 boxDash) ++ (tailJoin (chunkOf t) ++ r) from by simp]
    rw [hskip, ih r (fun x hx => hwf x (List.mem_cons_of_mem _ hx)) hr]
    simp

/-! ## A sufficient criterion for `NSP`: all dash runs short, none trailing -/

/-- Scan for `─` runs: `run` counts the dashes immediately before the current
position; every run must stay below 6 and the string must not end inside a
run. -/
def dashRunsShort : List Char → Nat → Bool
  | [], run => run == 0
  | c :: t, run =>
    if c = boxDash then decide (run < 5) && dashRunsShort t (run + 1)
    else dashRunsShort t 0

def dashSafe (l : List Char) : Prop := dashRunsShort l 0 = true

theorem dashRunsShort_append : ∀ (a : List Char) (run : Nat) (b : List Char),
    dashRunsShort a run = true → dashRunsShort b 0 = true →
    dashRunsShort (a ++ b) run = true := by
  intro a
  induction a with
  | nil =>
    intro run b ha hb
    rw [dashRunsShort] at ha
    have hr : run = 0 := by simpa using ha
    rw [List.nil_append, hr]
    exact hb
  | cons c t ih =>
    intro run b ha hb
    rw [List.cons_append]
    rw [dashRunsShort] at ha ⊢
    by_cases hc : c = boxDash
    · rw [if_pos hc] at ha ⊢
      simp only [Bool.and_eq_true] at ha ⊢
      exact ⟨ha.1, ih (run + 1) b ha.2 hb⟩
    · rw [if_neg hc] at ha ⊢
      exact ih 0 b ha hb

theorem dashSafe_append {a b : List Char} (ha : dashSafe a) (hb : dashSafe b) :
    dashSafe (a ++ b) :=
  dashRunsShort_append a 0 b ha hb

theorem dashSafe_dashfree {a : List Char} (h : ∀ c ∈ a, c ≠ boxDash) : dashSafe a := by
  unfold dashSafe
  induction a with
  | nil => rfl
  | cons c t ih =>
    rw [dashRunsShort, if_neg (h c (List.mem_cons_self _ _))]
    exact ih (fun x hx => h x (List.mem_cons_of_mem _ hx))

theorem dashRunsShort_suffix : ∀ (l : List Char) (run : Nat), run ≤ 5 →
    dashRunsShort l run = true →
    ∀ s, s <:+ l → ∃ r, r ≤ 5 ∧ dashRunsShort s r = true := by
  intro l
  induction l with
  | nil =>
    intro run h5 hs s hsuff
    exact ⟨run, h5, by rw [List.suffix_nil.mp hsuff]; exact hs⟩
  | cons c t ih =>
    intro run h5 hs s hsuff
    rcases List.suffix_cons_iff.mp hsuff with h | h
    · exact ⟨run, h5, h ▸ hs⟩
    · rw [dashRunsShort] at hs
      by_cases hc : c = boxDash
      · rw [if_pos hc] at hs
        simp only [Bool.and_eq_true, decide_eq_true_eq] at hs
        exact ih (run + 1) (by omega) hs.2 s h
      · rw [if_neg hc] at hs
        exact ih 0 (by omega) hs s h

theorem no_long_dash_prefix : ∀ (l : List Char) (run k : Nat), run ≤ 5 →
    dashRunsShort l run = true → 6 ≤ k + run →
    ¬ (List.replicate k boxDash <+: l) := by
  intro l
  induction l with
  | nil =>
    intro run k h5 _ h6 hpre
    have hk := congrArg List.length (List.prefix_nil.mp hpre)
    simp at hk
    omega
  | cons c t ih =>
    intro run k h5 hs h6 hpre
    cases k with
    | zero => omega
    | succ k2 =>
      rw [List.replicate_succ, List.cons_prefix_cons] at hpre
      obtain ⟨hcd, hpre2⟩ := hpre
      rw [dashRunsShort, if_pos hcd.symm] at hs
      simp only [Bool.and_eq_true, decide_eq_true_eq] at hs
      exact ih (run + 1) k2 (by omega) hs.2 (by omega) hpre2

theorem dashScan_getLast : ∀ (l : List Char) (run : Nat), dashRunsShort l run = true →
    ∀ (h : l ≠ []), l.getLast h ≠ boxDash := by
  intro l
  induction l with
  | nil => intro run _ h; exact absurd rfl h
  | cons c t ih =>
    intro run hs h
    cases t with
    | nil =>
      rw [dashRunsShort] at hs
      by_cases hc : c = boxDash
      · rw [if_pos hc] at hs
        simp [dashRunsShort] at hs
      · simpa using hc
    | cons d t2 =>
      rw [List.getLast_cons (by simp)]
      rw [dashRunsShort] at hs
      by_cases hc : c = boxDash
      · rw [if_pos hc] at hs
        simp only [Bool.and_eq_true] at hs
        exact ih (run + 1) hs.2 (by simp)
      · rw [if_neg hc] at hs
        exact ih 0 hs (by simp)

theorem dashSafe_NSP {l : List Char} (h : dashSafe l) : NSP l := by
  intro rest g2 r2 hsuff hne heq
  obtain ⟨r, hr5, hscan⟩ := dashRunsShort_suffix l 0 (by omega) h g2 hsuff
  by_cases h6 : 6 ≤ g2.length
  · have htake : g2.take 6 = List.replicate 6 boxDash := by
      have h1 : (g2 ++ rest).take 6 = g2.take 6 ++ rest.take (6 - g2.length) := by
        rw [List.take_append_eq_append_take]
      have h0 : 6 - g2.length = 0 := by omega
      rw [h0] at h1
      simp only [List.take_zero, List.append_nil] at h1
      have h2 : (fileStartLit ++ r2).take 6 = List.replicate 6 boxDash := by
        rw [fileStartLit_eq]
        rfl
      rw [← h1, heq, h2]
    have hpre : List.replicate 6 boxDash <+: g2 :=
      ⟨g2.drop 6, by rw [← htake, List.take_append_drop]⟩
    exact no_long_dash_prefix g2 r 6 hr5 hscan (by omega) hpre
  · push_neg at h6
    have hg2 : g2 = List.replicate g2.length boxDash := by
      have htake : g2 = (g2 ++ rest).take g2.length := (List.take_left g2 rest).symm
      rw [htake, heq, fileStartLit_eq]
      have hl6 : g2.length < 6 := h6
      set m := g2.length with hm
      interval_cases m <;> rfl
    have hall := List.eq_replicate_length.mp hg2
    exact dashScan_getLast g2 r hscan hne (hall _ (List.getLast_mem hne))

/-! ## Well-formed trees: the class of inputs for which the round trip is exact -/

/-- A marker-safe file or directory name: nonempty, no whitespace, no regex
delimiters `(`/`)`, no `─`, no path separators. -/
def wfName (n : List Char) : Prop :=
  n ≠ [] ∧ ∀ ch ∈ n, pyIsSpace ch = false ∧ ch ≠ '(' ∧ ch ≠ ')' ∧ ch ≠ boxDash
    ∧ ch ≠ osSep ∧ ch ≠ '\\'

/-- Marker-safe content: dash-free and invariant under `strip()`. -/
def wfContent (c : List Char) : Prop :=
  (∀ ch ∈ c, ch ≠ boxDash) ∧ stripChars c = c

def wfTree : FSTree → Prop
  | .file n c => wfName n ∧ wfContent c
  | .dir n cs => wfName n ∧ ∀ t ∈ cs, wfTree t
termination_by t => sizeOf t
decreasing_by
  have := List.sizeOf_lt_of_mem (by assumption)
  simp
  omega

theorem wfTree_name {t : FSTree} (h : wfTree t) : wfName (nameOf t) := by
  cases t with
  | file n c => rw [wfTree] at h; exact h.1
  | dir n cs => rw [wfTree] at h; exact h.1

/-- Ancestors-accumulated relative paths stay safe. -/
def wfPath (p : List Char) : Prop :=
  ∀ ch ∈ p, pyIsSpace ch = false ∧ ch ≠ ')' ∧ ch ≠ '\\'

theorem wfPath_pjoin {p n : List Char} (hp : wfPath p) (hn : wfName n) :
    wfPath (pjoin p n) := by
  intro ch hch
  rw [pjoin] at hch
  rcases List.mem_append.mp hch with h | h
  · exact hp ch h
  · rcases List.mem_cons.mp h with h | h
    · subst h; refine ⟨by decide, by decide, by decide⟩
    · obtain ⟨h1, h2, h3, h4, h5, h6⟩ := hn.2 ch h
      exact ⟨h1, h3, h6⟩

theorem dashfree_pjoin {p n : List Char} (hp : ∀ ch ∈ p, ch ≠ boxDash) (hn : wfName n) :
    ∀ ch ∈ pjoin p n, ch ≠ boxDash := by
  intro ch hch
  rw [pjoin] at hch
  rcases List.mem_append.mp hch with h | h
  · exact hp ch h
  · rcases List.mem_cons.mp h with h | h
    · subst h; decide
    · exact (hn.2 ch h).2.2.2.1

theorem mem_psgItems {x : FSTree} {cs : List FSTree} {exD exF : List (List Char)}
    (h : x ∈ psgItems cs exD exF) : x ∈ cs :=
  mem_sortByName.mp (List.mem_filter.mp h).1

/-- Every group of the walk has a dash-free `dirpath` and well-formed emitted
triples with safe paths. -/
theorem walk_wf : ∀ (M : Nat),
    (∀ (cs : List FSTree) (dirpath relDir : List Char) (exD exF : List (List Char)),
      2 * sizeOf cs + 1 ≤ M → (∀ t ∈ cs, wfTree t) →
      (∀ ch ∈ dirpath, ch ≠ boxDash) → wfPath relDir →
      ∀ g ∈ walkGroups dirpath relDir cs exD exF,
        (∀ ch ∈ g.1, ch ≠ boxDash) ∧ ∀ e ∈ g.2, wfTriple e ∧ wfPath e.2.1)
    ∧ (∀ (ds : List FSTree) (dirpath relDir : List Char) (exD exF : List (List Char)),
      2 * sizeOf ds ≤ M → (∀ t ∈ ds, wfTree t) →
      (∀ ch ∈ dirpath, ch ≠ boxDash) → wfPath relDir →
      ∀ g ∈ walkSubdirs dirpath relDir ds exD exF,
        (∀ ch ∈ g.1, ch ≠ boxDash) ∧ ∀ e ∈ g.2, wfTriple e ∧ wfPath e.2.1) := by
  intro M
  induction M with
  | zero =>
    constructor
    · intro cs _ _ _ _ hsz; omega
    · intro ds _ _ _ _ hsz
      have : 1 ≤ sizeOf ds := by cases ds <;> simp <;> omega
      omega
  | succ M ihM =>
    constructor
    · intro cs dirpath relDir exD exF hsz hwf hdp hrel g hg
      rw [walkGroups] at hg
      rcases List.mem_cons.mp hg with hg | hg
      · subst hg
        refine ⟨hdp, ?_⟩
        intro e he
        simp only [List.mem_map] at he
        obtain ⟨f, hf, rfl⟩ := he
        have hfc : f ∈ cs := (List.mem_filter.mp hf).1
        have hft := hwf f hfc
        have hwn := wfTree_name hft
        have hkeep := (List.mem_filter.mp hf).2
        have hfile : isFileT f = true := by
          rw [walkFileKeep] at hkeep
          simp only [Bool.and_eq_true] at hkeep
          exact hkeep.1.1
        have hcont : wfContent (contentOfEntry f) := by
          cases f with
          | file n c => rw [wfTree] at hft; exact hft.2
          | dir n cs2 => simp [isFileT] at hfile
        refine ⟨⟨hwn.1, ?_, ?_, hcont.1, hcont.2⟩, wfPath_pjoin hrel hwn⟩
        · intro ch hch
          obtain ⟨h1, h2, _⟩ := hwn.2 ch hch
          exact ⟨h1, h2⟩
        · intro ch hch
          obtain ⟨hp1, hp2, hp3⟩ := wfPath_pjoin hrel hwn ch hch
          exact hp2
      · have hds : ∀ t ∈ cs.filter (walkDirKeep dirpath exD), wfTree t :=
          fun t ht => hwf t (List.mem_filter.mp ht).1
        have hsz2 : 2 * sizeOf (cs.filter (walkDirKeep dirpath exD)) ≤ M := by
          have := sizeOf_filterFS_le (walkDirKeep dirpath exD) cs
          omega
        exact ihM.2 _ dirpath relDir exD exF hsz2 hds hdp hrel g hg
    · intro ds dirpath relDir exD exF hsz hwf hdp hrel g hg
      cases ds with
      | nil => rw [walkSubdirs.eq_def] at hg; simp at hg
      | cons d rest =>
        rw [walkSubdirs.eq_def] at hg
        simp only [] at hg
        rcases List.mem_append.mp hg with hg | hg
        · cases d with
          | file n c => simp at hg
          | dir n gcs =>
            have hdt := hwf (.dir n gcs) (List.mem_cons_self _ _)
            rw [wfTree] at hdt
            have hsz3 : 2 * sizeOf gcs + 1 ≤ M := by
              have h1 : sizeOf (FSTree.dir n gcs :: rest)
                  = 1 + sizeOf (FSTree.dir n gcs) + sizeOf rest := by simp <;> omega
              have h2 : sizeOf (FSTree.dir n gcs) = 1 + sizeOf n + sizeOf gcs := by
                simp <;> omega
              have h3 : 1 ≤ sizeOf rest := by cases rest <;> simp <;> omega
              have h4 : 1 ≤ sizeOf n := by cases n <;> simp <;> omega
              omega
            exact ihM.1 gcs (pjoin dirpath n) (pjoin relDir n) exD exF hsz3 hdt.2
              (dashfree_pjoin hdp hdt.1) (wfPath_pjoin hrel hdt.1) g hg
        · have hsz4 : 2 * sizeOf rest ≤ M := by
            have h1 : sizeOf (d :: rest) = 1 + sizeOf d + sizeOf rest := by simp <;> omega
            have h2 : 1 ≤ sizeOf d := by cases d <;> simp <;> omega
            omega
          exact ihM.2 rest dirpath relDir exD exF hsz4
            (fun t ht => hwf t (List.mem_cons_of_mem _ ht)) hdp hrel g hg

theorem dirLineElem_dashfree {d : List Char} (hd : ∀ ch ∈ d, ch ≠ boxDash) :
    ∀ ch ∈ dirLineElem d, ch ≠ boxDash := by
  intro ch hch
  rw [dirLineElem] at hch
  rcases List.mem_append.mp hch with h | h
  · rcases List.mem_append.mp h with h | h
    · intro he; subst he; exact absurd h (by decide)
    · exact hd ch h
  · intro he; subst he; exact absurd h (by decide)

theorem scan_groups :
    ∀ (gs : List (List Char × List (List Char × List Char × List Char))) (r : List Char),
    (∀ g ∈ gs, (∀ ch ∈ g.1, ch ≠ boxDash) ∧ ∀ e ∈ g.2, wfTriple e) →
    nlShape r →
    findAllStrict (tailJoin (gs.flatMap groupElems) ++ r)
      = (gs.flatMap (fun g => g.2)).map (fun e => (e.1, e.2.1, e.2.2)) ++ findAllStrict r := by
  intro gs
  induction gs with
  | nil => intro r _ _; simp [tailJoin]
  | cons g t ih =>
    intro r hwf hr
    obtain ⟨hgd, hge⟩ := hwf g (List.mem_cons_self _ _)
    have hfm : (g :: t).flatMap groupElems = groupElems g ++ t.flatMap groupElems := by
      simp
    have hfm2 : ((g :: t).flatMap fun x => x.2) = g.2 ++ t.flatMap fun x => x.2 := by
      simp
    rw [hfm, tailJoin_append, hfm2]
    by_cases hemp : g.2.isEmpty
    · have hfe : g.2 = [] := List.isEmpty_iff.mp hemp
      rw [groupElems, if_pos hemp, hfe]
      rw [show tailJoin ([] : List (List Char)) = [] from rfl]
      rw [List.nil_append, List.nil_append]
      exact ih r (fun x hx => hwf x (List.mem_cons_of_mem _ hx)) hr
    · rw [groupElems, if_neg hemp]
      rw [show (g.2.flatMap fun e => [startElem e.1 e.2.1, e.2.2, endElem e.1 e.2.1])
        = chunkOf g.2 from rfl]
      rw [tailJoin_cons]
      have hassoc : ((('\n' :: (dirLineElem g.1 ++ tailJoin (chunkOf g.2)))
            ++ tailJoin (t.flatMap groupElems)) ++ r)
          = '\n' :: (dirLineElem g.1 ++ (tailJoin (chunkOf g.2)
              ++ (tailJoin (t.flatMap groupElems) ++ r))) := by
        simp
      rw [hassoc, findAllStrict_nl]
      rw [findAll_skip (dirLineElem g.1) _ ((NSP_dashfree (dirLineElem_dashfree hgd)) _)]
      rw [scan_entries g.2 _ hge (nlShape_tailJoin_append _ _ hr)]
      rw [ih r (fun x hx => hwf x (List.mem_cons_of_mem _ hx)) hr]
      simp

theorem dashSafe_nil : dashSafe [] := rfl

theorem dashSafe_tailJoin : ∀ (l : List (List Char)), (∀ x ∈ l, dashSafe x) →
    dashSafe (tailJoin l) := by
  intro l
  induction l with
  | nil => intro _; exact dashSafe_nil
  | cons x t ih =>
    intro h
    rw [tailJoin_cons]
    have h1 : ('\n' :: (x ++ tailJoin t)) = ['\n'] ++ (x ++ tailJoin t) := rfl
    rw [h1]
    exact dashSafe_append (by unfold dashSafe; decide)
      (dashSafe_append (h x (List.mem_cons_self _ _))
      (ih (fun y hy => h y (List.mem_cons_of_mem _ hy))))

theorem dashSafe_intercalate : ∀ (l : List (List Char)), (∀ x ∈ l, dashSafe x) →
    dashSafe (List.intercalate ['\n'] l) := by
  intro l h
  cases l with
  | nil => exact dashSafe_nil
  | cons x t =>
    rw [intercalate_nl_cons]
    exact dashSafe_append (h x (List.mem_cons_self _ _))
      (dashSafe_tailJoin t (fun y hy => h y (List.mem_cons_of_mem _ hy)))

theorem dashfree_append {a b : List Char} (ha : ∀ ch ∈ a, ch ≠ boxDash)
    (hb : ∀ ch ∈ b, ch ≠ boxDash) : ∀ ch ∈ a ++ b, ch ≠ boxDash := by
  intro ch hch
  rcases List.mem_append.mp hch with h | h
  · exact ha ch h
  · exact hb ch h

theorem wfName_dashfree {n : List Char} (h : wfName n) : ∀ ch ∈ n, ch ≠ boxDash :=
  fun ch hch => (h.2 ch hch).2.2.2.1

theorem psgFileLines_dashSafe : ∀ (fs : List FSTree) (pre : List Char),
    (∀ t ∈ fs, wfTree t) → (∀ ch ∈ pre, ch ≠ boxDash) →
    ∀ line ∈ psgFileLines fs pre, dashSafe line := by
  intro fs
  induction fs with
  | nil => intro pre _ _ line hline; rw [psgFileLines] at hline; simp at hline
  | cons f rest ih =>
    intro pre hwf hpre line hline
    rw [psgFileLines] at hline
    rcases List.mem_cons.mp hline with h | h
    · subst h
      apply dashSafe_append (dashSafe_append (dashSafe_dashfree hpre) ?_)
        (dashSafe_dashfree (wfName_dashfree (wfTree_name (hwf f (List.mem_cons_self _ _)))))
      cases rest.isEmpty with
      | true => simp only [if_true]; unfold dashSafe; decide
      | false => simp only [Bool.false_eq_true, if_false]; unfold dashSafe; decide
    · exact ih pre (fun t ht => hwf t (List.mem_cons_of_mem _ ht)) hpre line h

theorem psg_dashSafe : ∀ (M : Nat),
    (∀ (cs : List FSTree) (pre : List Char) (exD exF : List (List Char)),
      2 * sizeOf cs + 2 ≤ M → (∀ t ∈ cs, wfTree t) → (∀ ch ∈ pre, ch ≠ boxDash) →
      dashSafe (psgRenderDir cs pre exD exF))
    ∧ (∀ (cs : List FSTree) (pre : List Char) (exD exF : List (List Char)),
      2 * sizeOf cs + 1 ≤ M → (∀ t ∈ cs, wfTree t) → (∀ ch ∈ pre, ch ≠ boxDash) →
      ∀ line ∈ psgBodyLines cs pre exD exF, dashSafe line)
    ∧ (∀ (ds : List FSTree) (b : Bool) (pre : List Char) (exD exF : List (List Char)),
      2 * sizeOf ds ≤ M → (∀ t ∈ ds, wfTree t) → (∀ ch ∈ pre, ch ≠ boxDash) →
      ∀ line ∈ psgDirLines ds b pre exD exF, dashSafe line) := by
  intro M
  induction M with
  | zero =>
    refine ⟨?_, ?_, ?_⟩
    · intro cs _ _ _ hsz; omega
    · intro cs _ _ _ hsz; omega
    · intro ds _ _ _ _ hsz
      have : 1 ≤ sizeOf ds := by cases ds <;> simp <;> omega
      omega
  | succ M ihM =>
    refine ⟨?_, ?_, ?_⟩
    · intro cs pre exD exF hsz hwf hpre
      rw [psgRenderDir]
      exact dashSafe_intercalate _ (ihM.2.1 cs pre exD exF (by omega) hwf hpre)
    · intro cs pre exD exF hsz hwf hpre line hline
      rw [psgBodyLines] at hline
      rcases List.mem_append.mp hline with h | h
      · have hds : 2 * sizeOf ((psgItems cs exD exF).filter isDirT) ≤ M := by
          have h1 := sizeOf_filterFS_le isDirT (psgItems cs exD exF)
          have h2 := sizeOf_psgItems_le cs exD exF
          omega
        exact ihM.2.2 _ _ pre exD exF hds
          (fun t ht => hwf t (mem_psgItems (List.mem_filter.mp ht).1)) hpre line h
      · exact psgFileLines_dashSafe _ pre
          (fun t ht => hwf t (mem_psgItems (List.mem_filter.mp ht).1)) hpre line h
    · intro ds b pre exD exF hsz hwf hpre line hline
      cases ds with
      | nil => rw [psgDirLines.eq_def] at hline; simp at hline
      | cons d rest =>
        rw [psgDirLines.eq_def] at hline
        simp only [] at hline
        rcases List.mem_cons.mp hline with h | h
        · subst h
          apply dashSafe_append (dashSafe_append (dashSafe_append
            (dashSafe_dashfree hpre) ?_)
            (dashSafe_dashfree (wfName_dashfree (wfTree_name (hwf d (List.mem_cons_self _ _))))))
            (by unfold dashSafe; decide)
          cases (rest.isEmpty && b) with
          | true => simp only [if_true]; unfold dashSafe; decide
          | false => simp only [Bool.false_eq_true, if_false]; unfold dashSafe; decide
        · rcases List.mem_cons.mp h with h2 | h2
          · subst h2
            cases d with
            | file n c => exact dashSafe_nil
            | dir n gcs =>
              have hdt := hwf (.dir n gcs) (List.mem_cons_self _ _)
              rw [wfTree] at hdt
              have hszg : 2 * sizeOf gcs + 2 ≤ M := by
                have h1 : sizeOf (FSTree.dir n gcs :: rest)
                    = 1 + sizeOf (FSTree.dir n gcs) + sizeOf rest := by simp <;> omega
                have h2 : sizeOf (FSTree.dir n gcs) = 1 + sizeOf n + sizeOf gcs := by
                  simp <;> omega
                have h3 : 1 ≤ sizeOf rest := by cases rest <;> simp <;> omega
                have h4 : 1 ≤ sizeOf n := by cases n <;> simp <;> omega
                omega
              apply ihM.1 gcs _ exD exF hszg hdt.2
              apply dashfree_append hpre
              cases (rest.isEmpty && b) with
              | true => simp only [if_true]; decide
              | false => simp only [Bool.false_eq_true, if_false]; decide
          · have hszr : 2 * sizeOf rest ≤ M := by
              have h1 : sizeOf (d :: rest) = 1 + sizeOf d + sizeOf rest := by simp <;> omega
              have h2 : 1 ≤ sizeOf d := by cases d <;> simp <;> omega
              omega
            exact ihM.2.2 rest b pre exD exF hszr
              (fun t ht => hwf t (List.mem_cons_of_mem _ ht)) hpre line h2

/-- Everything of the document before the newline that precedes the first
contents element. -/
def docHeader (parentDir rootName : List Char) (cs : List FSTree)
    (exD exF : List (List Char)) : List Char :=
  ("Directory Structure for: ").data ++ pjoin parentDir rootName ++ ("\n\n").data
    ++ ProjectStructureGenerator rootName cs exD exF
    ++ ("\n\n").data ++ List.replicate 80 '=' ++ ("\n\n").data ++ ("FILE CONTENTS").data

theorem serialize_header_split (parentDir rootName : List Char) (cs : List FSTree)
    (exD exF : List (List Char)) :
    serializeDocument parentDir rootName cs exD exF
      = docHeader parentDir rootName cs exD exF
        ++ ('\n' :: get_file_contents (pjoin parentDir rootName) rootName cs exD exF) := by
  rw [serializeDocument, docHeader]
  have h : ("FILE CONTENTS\n").data = ("FILE CONTENTS").data ++ ['\n'] := by decide
  rw [h]
  simp

theorem wfPath_of_wfName {n : List Char} (h : wfName n) : wfPath n :=
  fun ch hch => ⟨(h.2 ch hch).1, (h.2 ch hch).2.2.1, (h.2 ch hch).2.2.2.2.2⟩

theorem docHeader_dashSafe (parentDir rootName : List Char) (cs : List FSTree)
    (exD exF : List (List Char))
    (hpd : ∀ ch ∈ parentDir, ch ≠ boxDash) (hrn : wfName rootName)
    (hwf : ∀ t ∈ cs, wfTree t) :
    dashSafe (docHeader parentDir rootName cs exD exF) := by
  rw [docHeader]
  refine dashSafe_append (dashSafe_append (dashSafe_append (dashSafe_append (dashSafe_append
    (dashSafe_append (dashSafe_append ?_ ?_) ?_) ?_) ?_) ?_) ?_) ?_
  · unfold dashSafe; decide
  · exact dashSafe_dashfree (dashfree_pjoin hpd hrn)
  · unfold dashSafe; decide
  · rw [ProjectStructureGenerator]
    apply dashSafe_intercalate
    intro line hline
    rcases List.mem_cons.mp hline with h | h
    · subst h
      refine dashSafe_dashfree (dashfree_append (wfName_dashfree hrn) ?_)
      intro ch hch
      simp at hch
      subst hch
      decide
    · exact (psg_dashSafe (2 * sizeOf cs + 1)).2.1 cs [] exD exF (Nat.le_refl _) hwf
        (by simp) line h
  · unfold dashSafe; decide
  · exact dashSafe_dashfree (fun ch hch => by rw [List.eq_of_mem_replicate hch]; decide)
  · unfold dashSafe; decide
  · unfold dashSafe; decide

theorem findAllStrict_nil : findAllStrict [] = [] := rfl

/-- The strict scanner applied to the whole serialized document recovers
exactly the walked `(filename, rel_path, content)` triples, in document
order. -/
theorem serialize_scan (parentDir rootName : List Char) (cs : List FSTree)
    (exD exF : List (List Char))
    (hpd : ∀ ch ∈ parentDir, ch ≠ boxDash) (hrn : wfName rootName)
    (hwf : ∀ t ∈ cs, wfTree t) :
    findAllStrict (serializeDocument parentDir rootName cs exD exF)
      = (walkEntries (pjoin parentDir rootName) rootName cs exD exF).map
          (fun e => (e.1, e.2.1, e.2.2)) := by
  rw [serialize_header_split]
  have hwfg := (walk_wf (2 * sizeOf cs + 1)).1 cs (pjoin parentDir rootName) rootName exD exF
    (Nat.le_refl _) hwf (dashfree_pjoin hpd hrn) (wfPath_of_wfName hrn)
  have hsafe := docHeader_dashSafe parentDir rootName cs exD exF hpd hrn hwf
  rw [walkEntries]
  cases helems : (walkGroups (pjoin parentDir rootName) rootName cs exD exF).flatMap groupElems
    with
  | nil =>
    rw [get_file_contents, helems]
    rw [show List.intercalate ['\n'] ([] : List (List Char)) = [] from rfl]
    have hskip := findAll_skip (docHeader parentDir rootName cs exD exF ++ ['\n']) []
      ((dashSafe_NSP (dashSafe_append hsafe (by unfold dashSafe; decide))) [])
    rw [List.append_nil] at hskip
    rw [show (docHeader parentDir rootName cs exD exF ++ ['\n'])
      = docHeader parentDir rootName cs exD exF ++ ('\n' :: ([] : List Char)) from rfl] at hskip
    rw [hskip, findAllStrict_nil]
    have hall : ∀ g ∈ walkGroups (pjoin parentDir rootName) rootName cs exD exF, g.2 = [] := by
      intro g hg
      have hge : groupElems g = [] := by
        by_contra hne
        exact hne (List.flatMap_eq_nil_iff.mp helems g hg)
      rw [groupElems] at hge
      by_cases hemp : g.2.isEmpty
      · exact List.isEmpty_iff.mp hemp
      · rw [if_neg hemp] at hge
        simp at hge
    rw [List.flatMap_eq_nil_iff.mpr hall]
    rfl
  | cons x t =>
    rw [get_file_contents, helems]
    have hnl : ('\n' :: List.intercalate ['\n'] (x :: t)) = tailJoin (x :: t) := by
      rw [intercalate_nl_cons, tailJoin_cons]
    rw [hnl, ← helems]
    rw [findAll_skip _ _ ((dashSafe_NSP hsafe) _)]
    have hscan := scan_groups (walkGroups (pjoin parentDir rootName) rootName cs exD exF) []
      (fun g hg => ⟨(hwfg g hg).1, fun e he => ((hwfg g hg).2 e he).1⟩) (Or.inl rfl)
    rw [List.append_nil, findAllStrict_nil, List.append_nil] at hscan
    exact hscan

/-! ## C7: order of the FILE sections

`specWalk` is modelled on the SPEC's words ("directories are always visited
before files at the same level; both are lexicographically sorted"), to be
compared with the implemented `walkGroups`/`walkEntries` order. -/

mutual

def specWalk (dirpath relDir : List Char) (cs : List FSTree)
    (exD exF : List (List Char)) : List (List Char × List Char × List Char) :=
  specWalkDirs dirpath relDir ((sortByName cs).filter (walkDirKeep dirpath exD)) exD exF
    ++ ((sortByName cs).filter (walkFileKeep dirpath exF)).map
        (fun f => (nameOf f, pjoin relDir (nameOf f), contentOfEntry f))
termination_by 2 * sizeOf cs + 1
decreasing_by
  have h1 := sizeOf_filterFS_le (walkDirKeep dirpath exD) (sortByName cs)
  have h2 := sizeOf_sortByName cs
  omega

def specWalkDirs (dirpath relDir : List Char) (ds : List FSTree)
    (exD exF : List (List Char)) : List (List Char × List Char × List Char) :=
  match ds with
  | [] => []
  | d :: rest =>
    (match d with
     | .dir n gcs => specWalk (pjoin dirpath n) (pjoin relDir n) gcs exD exF
     | .file _ _ => []) ++ specWalkDirs dirpath relDir rest exD exF
termination_by 2 * sizeOf ds

end

def c7Tree : List FSTree :=
  [.file ("a.txt").data ("x").data,
   .dir ("sub").data [.file ("b.txt").data ("y").data]]


theorem c7Tree_wf : ∀ t ∈ c7Tree, wfTree t := by
  intro t ht
  simp [c7Tree] at ht
  rcases ht with rfl | rfl
  · rw [wfTree]
    exact ⟨by unfold wfName; decide, by unfold wfContent; decide⟩
  · rw [wfTree]
    refine ⟨by unfold wfName; decide, ?_⟩
    intro t2 ht2
    simp at ht2
    subst ht2
    rw [wfTree]
    exact ⟨by unfold wfName; decide, by unfold wfContent; decide⟩

/-- C7 counterexample: for a root holding a file `a.txt` and a subdirectory
`sub` containing `b.txt`, the FILE sections of the serialized document list
`p/a.txt` before `p/sub/b.txt` — the walk emits a directory's files before its
subdirectories, in unsorted listing order — while the traversal the spec
describes (subdirectories first, siblings sorted) would put `p/sub/b.txt`
first.  The document's section order is not the spec's traversal order. -/
theorem contents_order_not_spec_traversal :
    (findAllStrict (serializeDocument ("/b").data ("p").data c7Tree [] [])).map
        (fun e => e.2.1)
      = [("p/a.txt").data, ("p/sub/b.txt").data]
    ∧ (specWalk (pjoin ("/b").data ("p").data) ("p").data c7Tree [] []).map
        (fun e => e.2.1)
      = [("p/sub/b.txt").data, ("p/a.txt").data] := by
  constructor
  · rw [serialize_scan ("/b").data ("p").data c7Tree [] [] (by decide)
      (by unfold wfName; decide) c7Tree_wf]
    rw [List.map_map]
    simp [walkEntries, walkGroups, walkSubdirs, walkDirKeep, walkFileKeep, c7Tree, pjoin,
      nameOf, isDirT, isFileT, contentOfEntry, osSep, pycacheName]
  · simp [specWalk, specWalkDirs, walkDirKeep, walkFileKeep, c7Tree, pjoin, sortByName,
      insertByName, lexLt, nameOf, isDirT, isFileT, contentOfEntry, osSep, pycacheName]

/-- C7 amended: the FILE sections of the contents block appear in the order of
the implemented `os.walk` traversal: for each visited directory, its kept
files come first — in unsorted listing order — before every section coming
from its subdirectories, which are then visited in listing order.  Formally:
the section list scanned from the document equals, path for path, the
`walkEntries` list of the walk (whose groups list files before recursing).
The traversal is not the spec's "subdirectories before files, siblings
sorted" order (see the counterexample). -/
theorem contents_order_follows_walk (parentDir rootName : List Char) (cs : List FSTree)
    (exD exF : List (List Char))
    (hpd : ∀ ch ∈ parentDir, ch ≠ boxDash) (hrn : wfName rootName)
    (hwf : ∀ t ∈ cs, wfTree t) :
    (findAllStrict (serializeDocument parentDir rootName cs exD exF)).map (fun e => e.2.1)
      = (walkEntries (pjoin parentDir rootName) rootName cs exD exF).map (fun e => e.2.1) := by
  rw [serialize_scan parentDir rootName cs exD exF hpd hrn hwf, List.map_map]
  rfl

theorem contents_order_follows_walk_witness :
    (∀ ch ∈ ("/b").data, ch ≠ boxDash) ∧ wfName ("p").data ∧ (∀ t ∈ c7Tree, wfTree t) ∧
    (findAllStrict (serializeDocument ("/b").data ("p").data c7Tree [] [])).map
        (fun e => e.2.1)
      = (walkEntries (pjoin ("/b").data ("p").data) ("p").data c7Tree [] []).map
          (fun e => e.2.1) :=
  ⟨by decide, by unfold wfName; decide, c7Tree_wf,
    contents_order_follows_walk ("/b").data ("p").data c7Tree [] [] (by decide)
      (by unfold wfName; decide) c7Tree_wf⟩

/-! ## C1: the round trip -/

theorem stripChars_eq_self {p : List Char} (h : ∀ ch ∈ p, pyIsSpace ch = false) :
    stripChars p = p := by
  unfold stripChars lstripChars
  have h1 : ∀ (l : List Char), (∀ ch ∈ l, pyIsSpace ch = false) →
      List.dropWhile (fun c => pyIsSpace c) l = l := by
    intro l hl
    cases l with
    | nil => rfl
    | cons a t =>
      rw [List.dropWhile_cons]
      simp [hl a (List.mem_cons_self _ _)]
  rw [h1 p h, h1 p.reverse (fun ch hch => h ch (List.mem_reverse.mp hch)),
    List.reverse_reverse]

theorem normalizeSeps_eq_self {p : List Char} (h : ∀ ch ∈ p, ch ≠ '\\') :
    normalizeSeps p = p := by
  unfold normalizeSeps
  have h1 : (p.map fun c => if c = '\\' then osSep else c) = p := by
    calc (p.map fun c => if c = '\\' then osSep else c)
        = p.map id := List.map_congr_left (fun a ha => by rw [if_neg (h a ha)]; rfl)
      _ = p := List.map_id p
  rw [h1]
  calc (p.map fun c => if c = '/' then osSep else c)
      = p.map id := List.map_congr_left (fun a _ => by
        by_cases hc : a = '/'
        · rw [if_pos hc, hc]; rfl
        · rw [if_neg hc]; rfl)
    _ = p := List.map_id p

theorem dictInsert_notMem (k v : List Char) : ∀ (d : List (List Char × List Char)),
    (∀ kv ∈ d, kv.1 ≠ k) → dictInsert k v d = d ++ [(k, v)] := by
  intro d
  induction d with
  | nil => intro _; rfl
  | cons kv t ih =>
    intro h
    obtain ⟨k1, v1⟩ := kv
    rw [dictInsert, if_neg ?hne]
    case hne =>
      exact h (k1, v1) (List.mem_cons_self _ _)
    rw [ih (fun kv2 hkv2 => h kv2 (List.mem_cons_of_mem _ hkv2))]
    rfl

theorem storeMatches_eq : ∀ (ms : List (List Char × List Char × List Char))
    (d : List (List Char × List Char)),
    (ms.map (fun m => stripChars m.2.1)).Nodup →
    (∀ kv ∈ d, ∀ m ∈ ms, kv.1 ≠ stripChars m.2.1) →
    storeMatches ms d = d ++ ms.map (fun m => (stripChars m.2.1, stripChars m.2.2)) := by
  intro ms
  induction ms with
  | nil => intro d _ _; rw [storeMatches]; simp
  | cons m t ih =>
    intro d hnd hdis
    obtain ⟨g1, g2, g3⟩ := m
    rw [storeMatches]
    rw [dictInsert_notMem _ _ d
      (fun kv hkv => hdis kv hkv (g1, g2, g3) (List.mem_cons_self _ _))]
    rw [List.map_cons, List.nodup_cons] at hnd
    rw [ih (d ++ [(stripChars g2, stripChars g3)]) hnd.2 ?hdis2]
    · simp
    case hdis2 =>
      intro kv hkv m2 hm2
      rcases List.mem_append.mp hkv with h | h
      · exact hdis kv h m2 (List.mem_cons_of_mem _ hm2)
      · simp at h
        rw [h]
        show stripChars g2 ≠ stripChars m2.2.1
        intro heq
        exact hnd.1 (heq ▸ List.mem_map_of_mem (fun m => stripChars m.2.1) hm2)

theorem walkEntries_wf (parentDir rootName : List Char) (cs : List FSTree)
    (exD exF : List (List Char))
    (hpd : ∀ ch ∈ parentDir, ch ≠ boxDash) (hrn : wfName rootName)
    (hwf : ∀ t ∈ cs, wfTree t) :
    ∀ e ∈ walkEntries (pjoin parentDir rootName) rootName cs exD exF,
      wfTriple e ∧ wfPath e.2.1 := by
  intro e he
  rw [walkEntries] at he
  obtain ⟨g, hg, hge⟩ := List.mem_flatMap.mp he
  exact ((walk_wf (2 * sizeOf cs + 1)).1 cs (pjoin parentDir rootName) rootName exD exF
    (Nat.le_refl _) hwf (dashfree_pjoin hpd hrn) (wfPath_of_wfName hrn) g hg).2 e hge

theorem parse_of_serialize (parentDir rootName : List Char) (cs : List FSTree)
    (exD exF : List (List Char))
    (hpd : ∀ ch ∈ parentDir, ch ≠ boxDash) (hrn : wfName rootName)
    (hwf : ∀ t ∈ cs, wfTree t)
    (hne : walkEntries (pjoin parentDir rootName) rootName cs exD exF ≠ [])
    (hnodup : ((walkEntries (pjoin parentDir rootName) rootName cs exD exF).map
        (fun e => e.2.1)).Nodup) :
    parse_file_contents_robust (serializeDocument parentDir rootName cs exD exF)
      = (walkEntries (pjoin parentDir rootName) rootName cs exD exF).map
          (fun e => (e.2.1, e.2.2)) := by
  have hwfe := walkEntries_wf parentDir rootName cs exD exF hpd hrn hwf
  have hscan := serialize_scan parentDir rootName cs exD exF hpd hrn hwf
  have hstrip : ∀ e ∈ walkEntries (pjoin parentDir rootName) rootName cs exD exF,
      stripChars e.2.1 = e.2.1 :=
    fun e he => stripChars_eq_self (fun ch hch => ((hwfe e he).2 ch hch).1)
  rw [parse_file_contents_robust, parse_file_contents_robust_run]
  simp only [hscan]
  rw [if_neg ?hlen]
  case hlen =>
    simp only [List.length_map]
    intro h0
    exact hne (List.length_eq_zero.mp h0)
  show storeMatches _ [] = _
  rw [storeMatches_eq _ [] ?hnd (by simp)]
  case hnd =>
    rw [List.map_map]
    have : ((walkEntries (pjoin parentDir rootName) rootName cs exD exF).map
        ((fun m => stripChars m.2.1) ∘ (fun e => (e.1, e.2.1, e.2.2))))
        = (walkEntries (pjoin parentDir rootName) rootName cs exD exF).map
            (fun e => e.2.1) := by
      apply List.map_congr_left
      intro e he
      exact hstrip e he
    rw [this]
    exact hnodup
  rw [List.nil_append, List.map_map]
  apply List.map_congr_left
  intro e he
  show (stripChars e.2.1, stripChars e.2.2) = (e.2.1, e.2.2)
  rw [hstrip e he, ((hwfe e he).1).2.2.2.2]

def c1Tree : List FSTree := [.file ("a.txt").data (" x").data]

set_option maxRecDepth 100000 in
/-- C1 counterexample: whitespace-edged content is in no way marker-colliding,
yet the round trip is not the identity on it.  Serializing a tree holding one
file `a.txt` with content `" x"` and parsing the resulting document yields the
stripped content `"x"`: `materialize(parse(serialize(tree)))` differs from the
tree byte-for-byte.  (The parser stores `match[1].strip()` / `match[2].strip()`
at lines 102-104, so every leading/trailing whitespace of a file is lost.) -/
theorem roundtrip_strips_content :
    parse_file_contents_robust (serializeDocument ("/b").data ("p").data c1Tree [] [])
      = [(("p/a.txt").data, ("x").data)]
    ∧ ("x").data ≠ (" x").data := by
  constructor
  · have hdoc : serializeDocument ("/b").data ("p").data c1Tree [] []
        = ("Directory Structure for: /b/p\n\np/\n└── a.txt\n\n").data
          ++ (List.replicate 80 '='
          ++ ("\n\nFILE CONTENTS\n\n\n=== Directory: /b/p ===\n\n\n────── FILE START: a.txt (p/a.txt) ──────\n\n x\n\n────── FILE END: a.txt (p/a.txt) ──────").data) := by
      simp [serializeDocument, ProjectStructureGenerator, psgBodyLines, psgDirLines,
        psgRenderDir, psgFileLines, psgItems, psgKeep, sortByName, insertByName, lexLt,
        get_file_contents, walkGroups, walkSubdirs, walkDirKeep, walkFileKeep, groupElems,
        dirLineElem, startElem, endElem, pjoin, nameOf, isDirT, isFileT, contentOfEntry,
        osSep, pycacheName, c1Tree, List.intercalate, tailJoin]
    rw [hdoc]
    decide
  · decide

/-- C1 amended: the round trip is exact for every marker-safe tree — names
nonempty without whitespace, parentheses, `─` or separators; contents
dash-free and `strip()`-invariant — with at least one emitted file and
pairwise distinct relative paths: parsing the serialized document and
materializing it under `target_root` reproduces exactly the walked files, as
`target_root/rel_path ↦ content`, byte-for-byte and in walk order.  Without
strip-invariance the content comes back stripped (see the counterexample), so
the unconditional spec statement is too strong. -/
theorem roundtrip_exact (parentDir rootName targetRoot : List Char) (cs : List FSTree)
    (exD exF : List (List Char))
    (hpd : ∀ ch ∈ parentDir, ch ≠ boxDash) (hrn : wfName rootName)
    (hwf : ∀ t ∈ cs, wfTree t)
    (hne : walkEntries (pjoin parentDir rootName) rootName cs exD exF ≠ [])
    (hnodup : ((walkEntries (pjoin parentDir rootName) rootName cs exD exF).map
        (fun e => e.2.1)).Nodup) :
    (create_files_complete targetRoot (parse_file_contents_robust
        (serializeDocument parentDir rootName cs exD exF))).1
      = (walkEntries (pjoin parentDir rootName) rootName cs exD exF).map
          (fun e => (pjoin targetRoot e.2.1, e.2.2)) := by
  rw [parse_of_serialize parentDir rootName cs exD exF hpd hrn hwf hne hnodup]
  rw [create_files_complete]
  simp only [List.map_map]
  apply List.map_congr_left
  intro e he
  show (pjoin targetRoot (normalizeSeps e.2.1), e.2.2) = _
  have hwfe := walkEntries_wf parentDir rootName cs exD exF hpd hrn hwf e he
  rw [normalizeSeps_eq_self (fun ch hch => (hwfe.2 ch hch).2.2)]

theorem roundtrip_exact_witness :
    ((∀ ch ∈ ("/b").data, ch ≠ boxDash) ∧ wfName ("p").data ∧ (∀ t ∈ c7Tree, wfTree t)
      ∧ walkEntries (pjoin ("/b").data ("p").data) ("p").data c7Tree [] [] ≠ []
      ∧ ((walkEntries (pjoin ("/b").data ("p").data) ("p").data c7Tree [] []).map
          (fun e => e.2.1)).Nodup)
    ∧ (create_files_complete ("/out").data (parse_file_contents_robust
        (serializeDocument ("/b").data ("p").data c7Tree [] []))).1
      = (walkEntries (pjoin ("/b").data ("p").data) ("p").data c7Tree [] []).map
          (fun e => (pjoin ("/out").data e.2.1, e.2.2)) :=
  ⟨⟨by decide, by unfold wfName; decide, c7Tree_wf,
    by simp [walkEntries, walkGroups, walkSubdirs, walkDirKeep, walkFileKeep, c7Tree, pjoin,
      nameOf, isDirT, isFileT, contentOfEntry, osSep, pycacheName],
    by simp [walkEntries, walkGroups, walkSubdirs, walkDirKeep, walkFileKeep, c7Tree, pjoin,
      nameOf, isDirT, isFileT, contentOfEntry, osSep, pycacheName] <;> decide⟩,
    roundtrip_exact ("/b").data ("p").data ("/out").data c7Tree [] [] (by decide)
      (by unfold wfName; decide) c7Tree_wf
      (by simp [walkEntries, walkGroups, walkSubdirs, walkDirKeep, walkFileKeep, c7Tree, pjoin,
        nameOf, isDirT, isFileT, contentOfEntry, osSep, pycacheName])
      (by simp [walkEntries, walkGroups, walkSubdirs, walkDirKeep, walkFileKeep, c7Tree, pjoin,
        nameOf, isDirT, isFileT, contentOfEntry, osSep, pycacheName] <;> decide)⟩

/-! ## C5: exclusion -/

theorem wfName_sepfree {n : List Char} (h : wfName n) : ∀ ch ∈ n, ch ≠ osSep :=
  fun ch hch => (h.2 ch hch).2.2.2.2.1

/-- Every emitted path of the walk extends the accumulated relative directory
by a separator. -/
theorem walk_path_below : ∀ (M : Nat),
    (∀ (cs : List FSTree) (dirpath relDir : List Char) (exD exF : List (List Char)),
      2 * sizeOf cs + 1 ≤ M →
      ∀ g ∈ walkGroups dirpath relDir cs exD exF, ∀ e ∈ g.2, relDir ++ [osSep] <+: e.2.1)
    ∧ (∀ (ds : List FSTree) (dirpath relDir : List Char) (exD exF : List (List Char)),
      2 * sizeOf ds ≤ M →
      ∀ g ∈ walkSubdirs dirpath relDir ds exD exF, ∀ e ∈ g.2, relDir ++ [osSep] <+: e.2.1) := by
  intro M
  induction M with
  | zero =>
    constructor
    · intro cs _ _ _ _ hsz; omega
    · intro ds _ _ _ _ hsz
      have : 1 ≤ sizeOf ds := by cases ds <;> simp <;> omega
      omega
  | succ M ihM =>
    constructor
    · intro cs dirpath relDir exD exF hsz g hg e he
      rw [walkGroups] at hg
      rcases List.mem_cons.mp hg with hg | hg
      · subst hg
        simp only [List.mem_map] at he
        obtain ⟨f, hf, rfl⟩ := he
        exact ⟨nameOf f, by simp [pjoin]⟩
      · have hsz2 : 2 * sizeOf (cs.filter (walkDirKeep dirpath exD)) ≤ M := by
          have := sizeOf_filterFS_le (walkDirKeep dirpath exD) cs
          omega
        exact ihM.2 _ dirpath relDir exD exF hsz2 g hg e he
    · intro ds dirpath relDir exD exF hsz g hg e he
      cases ds with
      | nil => rw [walkSubdirs.eq_def] at hg; simp at hg
      | cons d rest =>
        rw [walkSubdirs.eq_def] at hg
        simp only [] at hg
        rcases List.mem_append.mp hg with hg | hg
        · cases d with
          | file n c => simp at hg
          | dir n gcs =>
            have hsz3 : 2 * sizeOf gcs + 1 ≤ M := by
              have h1 : sizeOf (FSTree.dir n gcs :: rest)
                  = 1 + sizeOf (FSTree.dir n gcs) + sizeOf rest := by simp <;> omega
              have h2 : sizeOf (FSTree.dir n gcs) = 1 + sizeOf n + sizeOf gcs := by
                simp <;> omega
              have h3 : 1 ≤ sizeOf rest := by cases rest <;> simp <;> omega
              have h4 : 1 ≤ sizeOf n := by cases n <;> simp <;> omega
              omega
            have hsub := ihM.1 gcs (pjoin dirpath n) (pjoin relDir n) exD exF hsz3 g hg e he
            refine List.IsPrefix.trans ?_ hsub
            exact ⟨n ++ [osSep], by simp [pjoin]⟩
        · have hsz4 : 2 * sizeOf rest ≤ M := by
            have h1 : sizeOf (d :: rest) = 1 + sizeOf d + sizeOf rest := by simp <;> omega
            have h2 : 1 ≤ sizeOf d := by cases d <;> simp <;> omega
            omega
          exact ihM.2 rest dirpath relDir exD exF hsz4 g hg e he

theorem sepfree_prefix_eq : ∀ (a b : List Char), (∀ ch ∈ a, ch ≠ osSep) →
    (∀ ch ∈ b, ch ≠ osSep) → a ++ [osSep] <+: b ++ [osSep] → a = b := by
  intro a
  induction a with
  | nil =>
    intro b _ hb h
    cases b with
    | nil => rfl
    | cons y b2 =>
      rw [List.nil_append, List.cons_append] at h
      obtain ⟨h1, -⟩ := List.cons_prefix_cons.mp h
      exact absurd h1.symm (hb y (List.mem_cons_self _ _))
  | cons x a2 ih =>
    intro b ha hb h
    cases b with
    | nil =>
      rw [List.cons_append, List.nil_append] at h
      obtain ⟨h1, -⟩ := List.cons_prefix_cons.mp h
      exact absurd h1 (ha x (List.mem_cons_self _ _))
    | cons y b2 =>
      rw [List.cons_append, List.cons_append] at h
      obtain ⟨h1, h2⟩ := List.cons_prefix_cons.mp h
      rw [h1, ih b2 (fun ch hch => ha ch (List.mem_cons_of_mem _ hch))
        (fun ch hch => hb ch (List.mem_cons_of_mem _ hch)) h2]

theorem walkSubdirs_no_excluded (dirpath relDir : List Char) (exD exF : List (List Char))
    (nd : List Char) (hndsep : ∀ ch ∈ nd, ch ≠ osSep)
    (hex : nd ∈ exD ∨ pjoin dirpath nd ∈ exD) :
    ∀ (ds : List FSTree), (∀ d' ∈ ds, walkDirKeep dirpath exD d' = true ∧ wfTree d') →
    ∀ g ∈ walkSubdirs dirpath relDir ds exD exF, ∀ e ∈ g.2,
      ¬ (pjoin relDir nd ++ [osSep] <+: e.2.1) := by
  intro ds
  induction ds with
  | nil =>
    intro _ g hg
    rw [walkSubdirs.eq_def] at hg
    simp at hg
  | cons d' rest ih =>
    intro hks g hg
    rw [walkSubdirs.eq_def] at hg
    simp only [] at hg
    rcases List.mem_append.mp hg with hg | hg
    · cases d' with
      | file _ _ => simp at hg
      | dir n gcs =>
        intro e he hpfx
        obtain ⟨hkeep, hwt⟩ := hks _ (List.mem_cons_self _ _)
        rw [wfTree] at hwt
        have hL1 := (walk_path_below (2 * sizeOf gcs + 1)).1 gcs (pjoin dirpath n)
          (pjoin relDir n) exD exF (Nat.le_refl _) g hg e he
        have hpfx2 : (relDir ++ [osSep]) ++ (nd ++ [osSep]) <+: e.2.1 := by
          have hq : (relDir ++ [osSep]) ++ (nd ++ [osSep]) = pjoin relDir nd ++ [osSep] := by
            simp [pjoin]
          rw [hq]
          exact hpfx
        have hL12 : (relDir ++ [osSep]) ++ (n ++ [osSep]) <+: e.2.1 := by
          have hq : (relDir ++ [osSep]) ++ (n ++ [osSep]) = pjoin relDir n ++ [osSep] := by
            simp [pjoin]
          rw [hq]
          exact hL1
        have heqn : nd = n := by
          rcases List.prefix_or_prefix_of_prefix hpfx2 hL12 with h | h
          · exact sepfree_prefix_eq nd n hndsep (wfName_sepfree hwt.1)
              ((List.prefix_append_right_inj _).mp h)
          · exact (sepfree_prefix_eq n nd (wfName_sepfree hwt.1) hndsep
              ((List.prefix_append_right_inj _).mp h)).symm
        rw [walkDirKeep] at hkeep
        rw [heqn] at hex
        simp [nameOf] at hkeep
        rcases hex with hex | hex
        · exact hkeep.1.2 hex
        · exact hkeep.2 hex
    · exact ih (fun d2 hd2 => hks d2 (List.mem_cons_of_mem _ hd2)) g hg

def c5Tree : List FSTree := [.dir ("sub").data [.file ("c.txt").data ("z").data]]

def c5Ex : List (List Char) := [("/b/p/sub").data]

/-- C5 counterexample: the directory `sub` is excluded by its full filesystem
path `/b/p/sub`.  `get_file_contents` prunes it (the walk emits no entry and
the contents block is empty), but `ProjectStructureGenerator` filters by bare
name only, so the excluded directory and the file `c.txt` beneath it still
appear in the Document's structure block: paths under a path-excluded
directory do appear in the Document. -/
theorem excluded_path_in_structure :
    (findSub ("c.txt").data (serializeDocument ("/b").data ("p").data c5Tree c5Ex [])).isSome
        = true
    ∧ walkEntries (pjoin ("/b").data ("p").data) ("p").data c5Tree c5Ex [] = [] := by
  constructor
  · have hdoc : serializeDocument ("/b").data ("p").data c5Tree c5Ex []
        = ("Directory Structure for: /b/p\n\np/\n└── sub/\n    └── c.txt\n\n").data
          ++ (List.replicate 80 '=' ++ ("\n\nFILE CONTENTS\n").data) := by
      simp [serializeDocument, ProjectStructureGenerator, psgBodyLines, psgDirLines,
        psgRenderDir, psgFileLines, psgItems, psgKeep, sortByName, insertByName, lexLt,
        get_file_contents, walkGroups, walkSubdirs, walkDirKeep, walkFileKeep, groupElems,
        dirLineElem, startElem, endElem, pjoin, nameOf, isDirT, isFileT, contentOfEntry,
        osSep, pycacheName, c5Tree, c5Ex, List.intercalate, tailJoin]
    rw [hdoc]
    decide
  · simp [walkEntries, walkGroups, walkSubdirs, walkDirKeep, walkFileKeep, c5Tree, c5Ex,
      pjoin, nameOf, isDirT, isFileT, contentOfEntry, osSep, pycacheName]

theorem foldl_pjoin_ext : ∀ (l : List (List Char)) (z : List Char),
    ∃ R, l.foldl pjoin z = z ++ R ∧ (R = [] ∨ ∃ Y, R = osSep :: Y) := by
  intro l
  induction l with
  | nil => intro z; exact ⟨[], by simp, Or.inl rfl⟩
  | cons b t ih =>
    intro z
    obtain ⟨R2, hR2, -⟩ := ih (pjoin z b)
    refine ⟨osSep :: (b ++ R2), ?_, Or.inr ⟨b ++ R2, rfl⟩⟩
    rw [List.foldl_cons, hR2]
    simp [pjoin]

theorem pjoin_foldl_decomp (relDir nd : List Char) (anc : List (List Char)) :
    ∃ Q, pjoin (anc.foldl pjoin relDir) nd ++ [osSep] = (relDir ++ [osSep]) ++ Q
      ∧ osSep ∈ Q := by
  cases anc with
  | nil =>
    refine ⟨nd ++ [osSep], ?_, by simp⟩
    simp [pjoin]
  | cons a anc2 =>
    obtain ⟨R, hR, -⟩ := foldl_pjoin_ext anc2 (pjoin relDir a)
    refine ⟨a ++ (R ++ (osSep :: (nd ++ [osSep]))), ?_, by simp⟩
    rw [List.foldl_cons, hR]
    simp [pjoin]

theorem pjoin_foldl_decomp_cons (relDir nd a : List Char) (anc2 : List (List Char)) :
    ∃ Y, pjoin ((a :: anc2).foldl pjoin relDir) nd ++ [osSep]
      = (relDir ++ [osSep]) ++ (a ++ (osSep :: Y)) := by
  obtain ⟨R, hR, hRs⟩ := foldl_pjoin_ext anc2 (pjoin relDir a)
  rcases hRs with rfl | ⟨Y0, rfl⟩
  · refine ⟨nd ++ [osSep], ?_⟩
    rw [List.foldl_cons, hR]
    simp [pjoin]
  · refine ⟨Y0 ++ (osSep :: (nd ++ [osSep])), ?_⟩
    rw [List.foldl_cons, hR]
    simp [pjoin]

/-- Two separator-free segments anchored at the same position and both
terminated by a separator must be the same segment. -/
theorem sep_anchor_eq : ∀ (a b Y : List Char), (∀ ch ∈ a, ch ≠ osSep) →
    (∀ ch ∈ b, ch ≠ osSep) →
    (a ++ (osSep :: Y) <+: b ++ [osSep] ∨ b ++ [osSep] <+: a ++ (osSep :: Y)) →
    a = b := by
  intro a
  induction a with
  | nil =>
    intro b Y _ hb h
    cases b with
    | nil => rfl
    | cons y b2 =>
      rcases h with h | h
      · rw [List.nil_append, List.cons_append] at h
        obtain ⟨h1, -⟩ := List.cons_prefix_cons.mp h
        exact absurd h1.symm (hb y (List.mem_cons_self _ _))
      · rw [List.cons_append, List.nil_append] at h
        obtain ⟨h1, -⟩ := List.cons_prefix_cons.mp h
        exact absurd h1 (hb y (List.mem_cons_self _ _))
  | cons x a2 ih =>
    intro b Y ha hb h
    cases b with
    | nil =>
      rcases h with h | h
      · rw [List.cons_append, List.nil_append] at h
        obtain ⟨h1, -⟩ := List.cons_prefix_cons.mp h
        exact absurd h1 (ha x (List.mem_cons_self _ _))
      · rw [List.nil_append, List.cons_append] at h
        obtain ⟨h1, -⟩ := List.cons_prefix_cons.mp h
        exact absurd h1.symm (ha x (List.mem_cons_self _ _))
    | cons y b2 =>
      have hxy : x = y := by
        rcases h with h | h
        · rw [List.cons_append, List.cons_append] at h
          exact (List.cons_prefix_cons.mp h).1
        · rw [List.cons_append, List.cons_append] at h
          exact ((List.cons_prefix_cons.mp h).1).symm
      have h2 : a2 ++ (osSep :: Y) <+: b2 ++ [osSep] ∨ b2 ++ [osSep] <+: a2 ++ (osSep :: Y) := by
        rcases h with h | h
        · rw [List.cons_append, List.cons_append] at h
          exact Or.inl (List.cons_prefix_cons.mp h).2
        · rw [List.cons_append, List.cons_append] at h
          exact Or.inr (List.cons_prefix_cons.mp h).2
      rw [hxy, ih b2 Y (fun ch hch => ha ch (List.mem_cons_of_mem _ hch))
        (fun ch hch => hb ch (List.mem_cons_of_mem _ hch)) h2]

/-- Exclusion at arbitrary depth: if `nd` names a directory whose ancestor
name chain from the scanned root is `anc`, and `nd` is excluded by bare name
or by the joined filesystem path of that chain, then no entry emitted by the
walk has a relative path below `anc/nd`. -/
theorem walk_excl_chain : ∀ (M : Nat),
    (∀ (cs : List FSTree) (dirpath relDir : List Char) (exD exF : List (List Char))
        (anc : List (List Char)) (nd : List Char),
      2 * sizeOf cs + 1 ≤ M → (∀ t ∈ cs, wfTree t) →
      (∀ a ∈ anc, ∀ ch ∈ a, ch ≠ osSep) → (∀ ch ∈ nd, ch ≠ osSep) →
      (nd ∈ exD ∨ pjoin (anc.foldl pjoin dirpath) nd ∈ exD) →
      ∀ g ∈ walkGroups dirpath relDir cs exD exF, ∀ e ∈ g.2,
        ¬ (pjoin (anc.foldl pjoin relDir) nd ++ [osSep] <+: e.2.1))
    ∧ (∀ (ds : List FSTree) (dirpath relDir : List Char) (exD exF : List (List Char))
        (anc : List (List Char)) (nd : List Char),
      2 * sizeOf ds ≤ M → (∀ d2 ∈ ds, walkDirKeep dirpath exD d2 = true ∧ wfTree d2) →
      (∀ a ∈ anc, ∀ ch ∈ a, ch ≠ osSep) → (∀ ch ∈ nd, ch ≠ osSep) →
      (nd ∈ exD ∨ pjoin (anc.foldl pjoin dirpath) nd ∈ exD) →
      ∀ g ∈ walkSubdirs dirpath relDir ds exD exF, ∀ e ∈ g.2,
        ¬ (pjoin (anc.foldl pjoin relDir) nd ++ [osSep] <+: e.2.1)) := by
  intro M
  induction M with
  | zero =>
    constructor
    · intro cs _ _ _ _ _ _ hsz; omega
    · intro ds _ _ _ _ _ _ hsz _ _
      have : 1 ≤ sizeOf ds := by cases ds <;> simp <;> omega
      omega
  | succ M ihM =>
    constructor
    · intro cs dirpath relDir exD exF anc nd hsz hwf hanc hnd hex g hg e he hpfx
      rw [walkGroups] at hg
      rcases List.mem_cons.mp hg with hg | hg
      · subst hg
        simp only [List.mem_map] at he
        obtain ⟨f, hf, rfl⟩ := he
        have hnf := wfTree_name (hwf f (List.mem_filter.mp hf).1)
        obtain ⟨Q, hQ, hQs⟩ := pjoin_foldl_decomp relDir nd anc
        rw [hQ] at hpfx
        have hQpre : Q <+: nameOf f := by
          have hsh : pjoin relDir (nameOf f) = (relDir ++ [osSep]) ++ nameOf f := by
            simp [pjoin]
          rw [hsh] at hpfx
          exact (List.prefix_append_right_inj _).mp hpfx
        obtain ⟨t, ht⟩ := hQpre
        have hmem : osSep ∈ nameOf f := by
          rw [← ht]
          exact List.mem_append_left _ hQs
        exact wfName_sepfree hnf osSep hmem rfl
      · have hsz2 : 2 * sizeOf (cs.filter (walkDirKeep dirpath exD)) ≤ M := by
          have := sizeOf_filterFS_le (walkDirKeep dirpath exD) cs
          omega
        exact ihM.2 _ dirpath relDir exD exF anc nd hsz2
          (fun d2 hd2 => ⟨(List.mem_filter.mp hd2).2, hwf d2 (List.mem_filter.mp hd2).1⟩)
          hanc hnd hex g hg e he hpfx
    · intro ds dirpath relDir exD exF anc nd hsz hks hanc hnd hex g hg e he hpfx
      cases anc with
      | nil =>
        have hex0 : nd ∈ exD ∨ pjoin dirpath nd ∈ exD := by
          rw [List.foldl_nil] at hex
          exact hex
        have hpfx0 : pjoin relDir nd ++ [osSep] <+: e.2.1 := by
          rw [List.foldl_nil] at hpfx
          exact hpfx
        exact walkSubdirs_no_excluded dirpath relDir exD exF nd hnd hex0 ds hks g hg e he hpfx0
      | cons a anc2 =>
        cases ds with
        | nil =>
          rw [walkSubdirs.eq_def] at hg
          simp at hg
        | cons d2 rest =>
          rw [walkSubdirs.eq_def] at hg
          simp only [] at hg
          rcases List.mem_append.mp hg with hg | hg
          · cases d2 with
            | file _ _ => simp at hg
            | dir n2 gcs2 =>
              obtain ⟨hkeep, hwt⟩ := hks _ (List.mem_cons_self _ _)
              rw [wfTree] at hwt
              have hL1 := (walk_path_below (2 * sizeOf gcs2 + 1)).1 gcs2 (pjoin dirpath n2)
                (pjoin relDir n2) exD exF (Nat.le_refl _) g hg e he
              have hL2 : (relDir ++ [osSep]) ++ (n2 ++ [osSep]) <+: e.2.1 := by
                have hq : (relDir ++ [osSep]) ++ (n2 ++ [osSep])
                    = pjoin relDir n2 ++ [osSep] := by simp [pjoin]
                rw [hq]
                exact hL1
              obtain ⟨Y, hY⟩ := pjoin_foldl_decomp_cons relDir nd a anc2
              have hpfxQ : (relDir ++ [osSep]) ++ (a ++ (osSep :: Y)) <+: e.2.1 := by
                rw [← hY]
                exact hpfx
              have haeq : a = n2 := by
                apply sep_anchor_eq a n2 Y (hanc a (List.mem_cons_self _ _))
                  (wfName_sepfree hwt.1)
                rcases List.prefix_or_prefix_of_prefix hpfxQ hL2 with h | h
                · exact Or.inl ((List.prefix_append_right_inj _).mp h)
                · exact Or.inr ((List.prefix_append_right_inj _).mp h)
              subst haeq
              have hsz3 : 2 * sizeOf gcs2 + 1 ≤ M := by
                have h1 : sizeOf (FSTree.dir a gcs2 :: rest)
                    = 1 + sizeOf (FSTree.dir a gcs2) + sizeOf rest := by simp <;> omega
                have h2 : sizeOf (FSTree.dir a gcs2) = 1 + sizeOf a + sizeOf gcs2 := by
                  simp <;> omega
                have h3 : 1 ≤ sizeOf rest := by cases rest <;> simp <;> omega
                have h4 : 1 ≤ sizeOf a := by cases a <;> simp <;> omega
                omega
              have hex2 : nd ∈ exD ∨ pjoin (anc2.foldl pjoin (pjoin dirpath a)) nd ∈ exD := by
                rw [List.foldl_cons] at hex
                exact hex
              have hpfx2 : pjoin (anc2.foldl pjoin (pjoin relDir a)) nd ++ [osSep] <+: e.2.1 := by
                rw [List.foldl_cons] at hpfx
                exact hpfx
              exact ihM.1 gcs2 (pjoin dirpath a) (pjoin relDir a) exD exF anc2 nd hsz3 hwt.2
                (fun a2 ha2 => hanc a2 (List.mem_cons_of_mem _ ha2)) hnd hex2 g hg e he hpfx2
          · have hsz4 : 2 * sizeOf rest ≤ M := by
              have h1 : sizeOf (d2 :: rest) = 1 + sizeOf d2 + sizeOf rest := by simp <;> omega
              have h2 : 1 ≤ sizeOf d2 := by cases d2 <;> simp <;> omega
              omega
            exact ihM.2 rest dirpath relDir exD exF (a :: anc2) nd hsz4
              (fun d3 hd3 => hks d3 (List.mem_cons_of_mem _ hd3)) hanc hnd hex g hg e he hpfx

/-- A directory `d` of the tree at arbitrary depth: `anc` is the chain of
ancestor directory names leading from the scanned root's children down to the
directory list containing `d`. -/
inductive ReachDir : List FSTree → List (List Char) → FSTree → Prop where
  | here : ∀ {cs : List FSTree} {d : FSTree}, d ∈ cs → ReachDir cs [] d
  | deeper : ∀ {cs : List FSTree} {n : List Char} {gcs : List FSTree}
      {anc : List (List Char)} {d : FSTree},
      FSTree.dir n gcs ∈ cs → ReachDir gcs anc d → ReachDir cs (n :: anc) d

theorem ReachDir_sepfree {cs : List FSTree} {anc : List (List Char)} {d : FSTree}
    (h : ReachDir cs anc d) :
    (∀ t ∈ cs, wfTree t) →
    (∀ a ∈ anc, ∀ ch ∈ a, ch ≠ osSep) ∧ (∀ ch ∈ nameOf d, ch ≠ osSep) := by
  induction h with
  | here hd =>
    intro hwf
    exact ⟨by simp, wfName_sepfree (wfTree_name (hwf _ hd))⟩
  | deeper hmem hr ih =>
    intro hwf
    have hdt := hwf _ hmem
    rw [wfTree] at hdt
    obtain ⟨ih1, ih2⟩ := ih hdt.2
    refine ⟨?_, ih2⟩
    intro a ha
    rcases List.mem_cons.mp ha with ha | ha
    · subst ha
      exact wfName_sepfree hdt.1
    · exact ih1 a ha

/-- C5 amended: exclusion is complete only for the contents block.  For a
well-formed tree, if a directory `d` at any depth — reached from the scanned
root through the ancestor name chain `anc` — is excluded, by bare name or by
its full joined filesystem path, then no emitted file of `get_file_contents`
has a relative path below it: the walk prunes every such directory and nothing
under it reaches the contents block or the materialized output.  The structure
block, however, filters by bare name only, so a path-excluded directory is
still rendered there (see the counterexample). -/
theorem excluded_dir_not_in_contents (parentDir rootName : List Char) (cs : List FSTree)
    (exD exF : List (List Char)) (anc : List (List Char)) (d : FSTree)
    (hreach : ReachDir cs anc d)
    (hwf : ∀ t ∈ cs, wfTree t)
    (hex : nameOf d ∈ exD
      ∨ pjoin (anc.foldl pjoin (pjoin parentDir rootName)) (nameOf d) ∈ exD) :
    ∀ e ∈ walkEntries (pjoin parentDir rootName) rootName cs exD exF,
      ¬ (pjoin (anc.foldl pjoin rootName) (nameOf d) ++ [osSep] <+: e.2.1) := by
  intro e he hpfx
  rw [walkEntries] at he
  obtain ⟨g, hg, hge⟩ := List.mem_flatMap.mp he
  obtain ⟨hanc, hnd⟩ := ReachDir_sepfree hreach hwf
  exact (walk_excl_chain (2 * sizeOf cs + 1)).1 cs (pjoin parentDir rootName) rootName exD exF
    anc (nameOf d) (Nat.le_refl _) hwf hanc hnd hex g hg e hge hpfx

def c5TreeDeep : List FSTree :=
  [.dir ("keep").data [.dir ("sub").data [.file ("c.txt").data ("z").data]]]

def c5ExDeep : List (List Char) := [("/b/p/keep/sub").data]

theorem excluded_dir_not_in_contents_witness :
    (ReachDir c5TreeDeep [("keep").data]
        (FSTree.dir ("sub").data [.file ("c.txt").data ("z").data])
      ∧ (∀ t ∈ c5TreeDeep, wfTree t)
      ∧ (nameOf (FSTree.dir ("sub").data [.file ("c.txt").data ("z").data]) ∈ c5ExDeep
          ∨ pjoin ([("keep").data].foldl pjoin (pjoin ("/b").data ("p").data))
              (nameOf (FSTree.dir ("sub").data [.file ("c.txt").data ("z").data]))
            ∈ c5ExDeep))
    ∧ ∀ e ∈ walkEntries (pjoin ("/b").data ("p").data) ("p").data c5TreeDeep c5ExDeep [],
        ¬ (pjoin ([("keep").data].foldl pjoin ("p").data)
            (nameOf (FSTree.dir ("sub").data [.file ("c.txt").data ("z").data]))
          ++ [osSep] <+: e.2.1) :=
  ⟨⟨ReachDir.deeper (List.mem_cons_self _ _) (ReachDir.here (List.mem_cons_self _ _)),
    by
      intro t ht
      simp [c5TreeDeep] at ht
      subst ht
      rw [wfTree]
      refine ⟨by unfold wfName; decide, ?_⟩
      intro t2 ht2
      simp at ht2
      subst ht2
      rw [wfTree]
      refine ⟨by unfold wfName; decide, ?_⟩
      intro t3 ht3
      simp at ht3
      subst ht3
      rw [wfTree]
      exact ⟨by unfold wfName; decide, by unfold wfContent; decide⟩,
    Or.inr (by decide)⟩,
    excluded_dir_not_in_contents ("/b").data ("p").data c5TreeDeep c5ExDeep []
      [("keep").data]
      (FSTree.dir ("sub").data [.file ("c.txt").data ("z").data])
      (ReachDir.deeper (List.mem_cons_self _ _) (ReachDir.here (List.mem_cons_self _ _)))
      (by
        intro t ht
        simp [c5TreeDeep] at ht
        subst ht
        rw [wfTree]
        refine ⟨by unfold wfName; decide, ?_⟩
        intro t2 ht2
        simp at ht2
        subst ht2
        rw [wfTree]
        refine ⟨by unfold wfName; decide, ?_⟩
        intro t3 ht3
        simp at ht3
        subst ht3
        rw [wfTree]
        exact ⟨by unfold wfName; decide, by unfold wfContent; decide⟩)
      (Or.inr (by decide))⟩
